import Mathlib

/-!
# Verification of the SelectableTreeView selection-state core

Shallow embedding of the selection-state engine of the
`SelectableTreeWithConfig` component family:

* `src/components/SelectableTreeView/src/helpers.ts` — flat-store helpers
  (`getParentId`, `isRootItem`, `getChildrenFromFlat`, `findItemInFlat`,
  `getAllDescendantIds`, `toggleItemsRecursively`, `getRootItems`,
  `getAncestorIds`);
* `src/components/SelectableTreeView/src/SelectableTreeWithConfig.tsx` —
  the packaged component (apply-config effect, `checkedState` aggregation,
  `hasConfigChanged`, `handleToggle`, `callLoad`, `generateMinimalConfig`);
* `src/components/SelectableTreeView/SelectableTreeWithConfig.tsx` — the
  legacy component variant (majority-vote `generateMinimalConfig`, root
  filter accepting the `'root'` sentinel);
* `src/components/SelectableTreeView/utils.ts` — nested-tree utilities
  (`isItemEnabled`, `findItemPath`).

The TypeScript functions recurse through a flat item array by scanning for
matching `parentId`; that recursion terminates only on well-formed (acyclic)
stores.  The embedding makes every such walk total by threading an explicit
depth `fuel` argument; theorems about well-formed stores carry a rank
function decreasing from child to parent, which bounds the depth that can
ever be reached, so all results are fuel-independent in the region the
theorems speak about.  JavaScript `Set`s are embedded as duplicate-free
lists (`setAdd` / `setDelete`), JavaScript `Map`s as association lists with
in-place update (`alSet` / `alGet` / `alDelete`), both preserving insertion
order exactly as the runtime does.
-/

namespace SelectableTreeView

/-- One entry of the flat Node Store: `{ id, parentId }`.
(`title` and the opaque payload play no role in the selection logic.) -/
structure Item where
  id : String
  parentId : Option String
deriving DecidableEq, Repr

/-- Embeds `'enabled' | 'disabled'` — the value type of the `explicitActions` map. -/
inductive Action where
  | enabled
  | disabled
deriving DecidableEq, Repr

/-- Embeds `TreeSyncConfig` from `types.ts`: `{ enabled: string[], disabled: string[] }`. -/
structure TreeSyncConfig where
  enabled : List String
  disabled : List String
deriving DecidableEq, Repr

/-- Embeds `TreeNodeState` from `types.ts`: `{ checked, indeterminate }`. -/
structure NodeState where
  checked : Bool
  indeterminate : Bool
deriving DecidableEq, Repr

/-- Embeds `helpers.ts` `getParentId`: `item.parentId || null`.
The empty string is falsy in JavaScript, hence also mapped to `none`. -/
def getParentId (it : Item) : Option String :=
  match it.parentId with
  | none => none
  | some s => if s = "" then none else some s

/-- Embeds `helpers.ts` `isRootItem`: `getParentId(item) === null`. -/
def isRootItem (it : Item) : Bool :=
  getParentId it = none

/-- Embeds `helpers.ts` `getChildrenFromFlat`: filter of the flat array by
`getParentId(item) === parentId`. -/
def getChildrenFromFlat (items : List Item) (pid : Option String) : List Item :=
  items.filter (fun it => getParentId it = pid)

/-- Children of the node with identifier `id` (every call site of
`getChildrenFromFlat` in the packaged component passes an id string). -/
def childrenOf (items : List Item) (id : String) : List Item :=
  getChildrenFromFlat items (some id)

/-- Embeds `helpers.ts` `getRootItems`: `items.filter(isRootItem)`. -/
def getRootItems (items : List Item) : List Item :=
  items.filter isRootItem

/-- JS `Set.add`: append the element if not yet present (insertion order). -/
def setAdd (s : List String) (x : String) : List String :=
  if x ∈ s then s else s ++ [x]

/-- JS `Set.delete`: remove the element. -/
def setDelete (s : List String) (x : String) : List String :=
  s.filter (fun y => y ≠ x)

/-- JS `Map.get`. -/
def alGet (m : List (String × Action)) (k : String) : Option Action :=
  (m.find? (fun e => e.1 = k)).map (fun e => e.2)

/-- JS `Map.set`: overwrite in place if the key exists, else append. -/
def alSet (m : List (String × Action)) (k : String) (v : Action) :
    List (String × Action) :=
  match m with
  | [] => [(k, v)]
  | e :: rest => if e.1 = k then (k, v) :: rest else e :: alSet rest k v

/-- JS `Map.delete`. -/
def alDelete (m : List (String × Action)) (k : String) : List (String × Action) :=
  m.filter (fun e => e.1 ≠ k)

/-- The apply-config effect builds `actions` from the incoming record:
`config.enabled.forEach(id => actions.set(id, 'enabled'))` followed by
`config.disabled.forEach(id => actions.set(id, 'disabled'))`. -/
def buildActions (cfg : TreeSyncConfig) : List (String × Action) :=
  cfg.disabled.foldl (fun m id => alSet m id .disabled)
    (cfg.enabled.foldl (fun m id => alSet m id .enabled) [])

/-- Packaged `generateMinimalConfig`: split the `explicitActions` map into
the `enabled` and `disabled` arrays, in map iteration order. -/
def generateMinimalConfig (acts : List (String × Action)) : TreeSyncConfig :=
  { enabled := acts.filterMap (fun e => if e.2 = Action.enabled then some e.1 else none)
    disabled := acts.filterMap (fun e => if e.2 = Action.disabled then some e.1 else none) }

/-- One level of the recursive fallback search inside `helpers.ts`
`findItemInFlat`: walk the entries of the current list, comparing ids and
recursing into `getChildrenFromFlat` children through `rec`. -/
def searchFlatAux (items : List Item) (tid : String)
    (rec : List Item → Option (Option Item)) : List Item → Option (Option Item)
  | [] => some none
  | it :: rest =>
    if it.id = tid then some (some it)
    else
      match rec (childrenOf items it.id) with
      | none => none
      | some (some r) => some (some r)
      | some none => searchFlatAux items tid rec rest

/-- The recursive fallback search of `findItemInFlat`.  The source
recursion terminates only on acyclic stores; `fuel` bounds the recursion
depth (`none` = fuel exhausted, `some r` = the source search finished with
result `r`). -/
def searchFlat (items : List Item) (tid : String) :
    Nat → List Item → Option (Option Item)
  | 0, [] => some none
  | 0, _ :: _ => none
  | n + 1, l => searchFlatAux items tid (searchFlat items tid n) l

/-- Embeds `helpers.ts` `findItemInFlat`: direct `items.find` first, recursive
search only when the direct lookup misses. -/
def findItemInFlat (items : List Item) (tid : String) (fuel : Nat) :
    Option (Option Item) :=
  match items.find? (fun it => it.id = tid) with
  | some it => some (some it)
  | none => searchFlat items tid fuel items

/-- Embeds `helpers.ts` `getAllDescendantIds`: depth-first collection of each
child's id followed by the child's own descendants. -/
def collectDescendants (items : List Item) : Nat → Item → List String
  | 0, _ => []
  | n + 1, it =>
    (childrenOf items it.id).flatMap (fun c => c.id :: collectDescendants items n c)

/-- Ids visited by `toggleItemsRecursively` within `fuel` levels: the node
itself plus, one fuel level deeper, its children's coverage. -/
def covIds (items : List Item) : Nat → Item → List String
  | 0, _ => []
  | n + 1, it => it.id :: (childrenOf items it.id).flatMap (covIds items n)

/-- Embeds `helpers.ts` `toggleItemsRecursively`: add/remove the node's id on the
checked set, then recurse into the currently loaded children. -/
def toggleItemsRecursively (items : List Item) :
    Nat → Item → Bool → List String → List String
  | 0, _, _, s => s
  | n + 1, it, chk, s =>
    let s' := if chk then setAdd s it.id else setDelete s it.id
    (childrenOf items it.id).foldl
      (fun acc c => toggleItemsRecursively items n c chk acc) s'

/-- The `isEnabled` computation shared by the apply-config traversal and
the effective-value specification: explicit action first (`'enabled'` →
on, `'disabled'` → off), else the inherited flag. -/
def travFlag (acts : List (String × Action)) (pE : Bool) (it : Item) : Bool :=
  match alGet acts it.id with
  | some .enabled => true
  | some .disabled => false
  | none => pE

/-- The `applyConfig` closure of the packaged apply-config effect: iterate
`itemList`, derive each item's `isEnabled` from its explicit action (else
the inherited `parentEnabled`), add enabled ids to the growing checked set,
and recurse into the flat-array children with the updated flag.  The
top-level call is `applyConfig(items, false)` over the whole store. -/
def applyConfigList (items : List Item) (acts : List (String × Action)) :
    Nat → List Item → Bool → List String → List String
  | 0, _, _, chk => chk
  | n + 1, l, parentEnabled, chk =>
    l.foldl
      (fun acc it =>
        let isEnabled := travFlag acts parentEnabled it
        let acc1 := if isEnabled then setAdd acc it.id else acc
        applyConfigList items acts n (childrenOf items it.id) isEnabled acc1)
      chk

/-- The session state owned by the component that the selection logic
mutates: `checkedItems` (a JS `Set`) and `explicitActions` (a JS `Map`). -/
structure TState where
  checkedItems : List String
  explicitActions : List (String × Action)
deriving DecidableEq, Repr

/-- The apply-config effect (`useEffect` on `[items, config]` of the
packaged component): rebuild `explicitActions` from the record and the
checked set by the top-down traversal `applyConfig(items, false)`. -/
def applyExternal (items : List Item) (cfg : TreeSyncConfig) (fuel : Nat) :
    TState :=
  let acts := buildActions cfg
  { checkedItems := applyConfigList items acts fuel items false []
    explicitActions := acts }

/-- The recursion-free effective value of one node, obtained by following
the parent chain: own override first, else the parent's effective value,
else the root default `false` (also used for a missing parent).  This is
the specification against which the traversal-based `applyConfigList` is
proved correct; it mirrors a single root-to-node pass of the resolver. -/
def effVal (items : List Item) (acts : List (String × Action)) :
    Nat → Item → Bool
  | 0, it => travFlag acts false it
  | n + 1, it =>
    let inherited :=
      match getParentId it with
      | none => false
      | some pid =>
        match items.find? (fun p => p.id = pid) with
        | none => false
        | some p => effVal items acts n p
    travFlag acts inherited it

/-- Embeds `calculateState` of the packaged `checkedState` memo, value part: a
node with no loaded children reads the checked set directly; otherwise the
tri-state is aggregated from the children's states. -/
def calcState (items : List Item) (chk : List String) : Nat → Item → NodeState
  | 0, _ => { checked := false, indeterminate := false }
  | n + 1, it =>
    let children := childrenOf items it.id
    if children.isEmpty then
      { checked := it.id ∈ chk, indeterminate := false }
    else
      let childStates := children.map (calcState items chk n)
      let allChecked := childStates.all (fun s => s.checked && !s.indeterminate)
      let someChecked := childStates.any (fun s => s.checked || s.indeterminate)
      { checked := allChecked, indeterminate := someChecked && !allChecked }

/-- Embeds `calculateState`, map-building part: every visited node's state is
`state.set` into the shared map, children first. -/
def calcStateMapFrom (items : List Item) (chk : List String) :
    Nat → Item → List (String × NodeState) → List (String × NodeState)
  | 0, _, m => m
  | n + 1, it, m =>
    let children := childrenOf items it.id
    if children.isEmpty then
      m ++ [(it.id, { checked := it.id ∈ chk, indeterminate := false })]
    else
      let m' := children.foldl (fun acc c => calcStateMapFrom items chk n c acc) m
      m' ++ [(it.id, calcState items chk (n + 1) it)]

/-- JS `Map.get` for the `checkedState` map (last `set` wins). -/
def nsGet (m : List (String × NodeState)) (k : String) : Option NodeState :=
  (m.reverse.find? (fun e => e.1 = k)).map (fun e => e.2)

/-- The packaged `checkedState` memo: traverse every root item, recording
each visited node's `{checked, indeterminate}` in the map. -/
def checkedStateMap (items : List Item) (chk : List String) (fuel : Nat) :
    List (String × NodeState) :=
  (getRootItems items).foldl (fun m r => calcStateMapFrom items chk fuel r m) []

/-- Packaged `handleToggle`: locate the item, negate its aggregated checked
state, toggle it and all loaded descendants in the checked set, record the
explicit action and delete every descendant action. -/
def handleToggle (items : List Item) (fuel : Nat) (st : TState)
    (itemId : String) : TState :=
  match findItemInFlat items itemId fuel with
  | none => st
  | some none => st
  | some (some item) =>
    let shouldCheck :=
      match nsGet (checkedStateMap items st.checkedItems fuel) itemId with
      | none => true
      | some s => !s.checked
    let newChecked := toggleItemsRecursively items fuel item shouldCheck st.checkedItems
    let descendants := collectDescendants items fuel item
    let newActions :=
      descendants.foldl (fun m d => alDelete m d)
        (alSet st.explicitActions itemId
          (if shouldCheck then Action.enabled else Action.disabled))
    { checkedItems := newChecked, explicitActions := newActions }

/-- Packaged `hasConfigChanged`: `true` when there is no previous record,
or when either array differs from the previous one in length or at any
index (an order-sensitive, element-wise comparison). -/
def hasConfigChanged (newC : TreeSyncConfig) (prevC : Option TreeSyncConfig) :
    Bool :=
  match prevC with
  | none => true
  | some p =>
    let enabledChanged :=
      newC.enabled.length ≠ p.enabled.length ||
        (newC.enabled.enum.any (fun e => p.enabled.get? e.1 ≠ some e.2))
    let disabledChanged :=
      newC.disabled.length ≠ p.disabled.length ||
        (newC.disabled.enum.any (fun e => p.disabled.get? e.1 ≠ some e.2))
    enabledChanged || disabledChanged

/-- The `while (currentItem)` loop of `helpers.ts` `getAncestorIds`: push
the parent id, look the parent up, continue from it; break on a missing
parentId or an unresolvable parent.  The source loop tracks no visited ids,
so it terminates only on acyclic stores; `fuel` bounds the number of
iterations (`none` = fuel exhausted, `some l` = the loop finished having
pushed `l`). -/
def ancLoop (items : List Item) :
    Nat → Item → List String → Option (List String)
  | 0, _, _ => none
  | n + 1, cur, acc =>
    match getParentId cur with
    | none => some acc
    | some pid =>
      match items.find? (fun p => p.id = pid) with
      | none => some (acc ++ [pid])
      | some p => ancLoop items n p (acc ++ [pid])

/-- Embeds `helpers.ts` `getAncestorIds`: find the starting item (empty result when
absent), then run the parent-chain loop. -/
def getAncestorIds (items : List Item) (itemId : String) (fuel : Nat) :
    Option (List String) :=
  match findItemInFlat items itemId fuel with
  | none => none
  | some none => some []
  | some (some it) => ancLoop items fuel it []

/-- The walk of `getAncestorIds` finishes within some fuel bound. -/
def AncTerminates (items : List Item) (itemId : String) : Prop :=
  ∃ fuel, getAncestorIds items itemId fuel ≠ none

/-- The recursive absence search of `findItemInFlat` finishes within some
fuel bound. -/
def SearchTerminates (items : List Item) (tid : String) : Prop :=
  ∃ fuel, searchFlat items tid fuel items ≠ none

/-- The four ways the injected `loadChildren` callback can behave, as
observed by `callLoad`. -/
inductive LoaderBehavior where
  | syncOk
  | syncThrow
  | asyncResolve
  | asyncReject
deriving DecidableEq, Repr

/-- Result of one `callLoad(parentId)` invocation once any returned promise
has settled: the final requested-parents set (`loadedParentsRef`), the
final loading-indicator set (`loadingNodes`), and whether an exception
escaped to the caller of `callLoad`. -/
structure LoadResult where
  requested : List String
  loading : List String
  propagated : Bool
deriving DecidableEq, Repr

/-- Packaged `callLoad`: skip when already requested; mark loading; invoke
the loader; on a synchronous throw the `catch` block removes the requested
and loading entries and *rethrows* (`throw err`); on a returned promise the
id is marked requested immediately, `.finally` clears the loading entry and
`.catch` removes the requested entry on rejection, swallowing it. -/
def callLoad (requested loading : List String) (pid : String)
    (behavior : LoaderBehavior) : LoadResult :=
  if pid ∈ requested then
    { requested := requested, loading := loading, propagated := false }
  else
    match behavior with
    | .syncThrow =>
      { requested := setDelete requested pid
        loading := setDelete (setAdd loading pid) pid
        propagated := true }
    | .syncOk =>
      { requested := setAdd requested pid
        loading := setDelete (setAdd loading pid) pid
        propagated := false }
    | .asyncResolve =>
      { requested := setAdd requested pid
        loading := setDelete (setAdd loading pid) pid
        propagated := false }
    | .asyncReject =>
      { requested := setDelete (setAdd requested pid) pid
        loading := setDelete (setAdd loading pid) pid
        propagated := false }

/-- Nested tree node as consumed by `utils.ts` (`id` plus `children`). -/
inductive TreeN where
  | node (id : String) (children : List TreeN)

/-- Identifier of a nested tree node. -/
def TreeN.id : TreeN → String
  | .node i _ => i

/-- Children of a nested tree node. -/
def TreeN.children : TreeN → List TreeN
  | .node _ c => c

/-- Size of a node strictly dominates the size of its children list. -/
theorem TreeN.sizeOf_children_lt (t : TreeN) : sizeOf t.children < sizeOf t := by
  cases t with
  | node i c => simp [TreeN.children]

/-- Embeds `utils.ts` `findItemPath`: root-to-target path through the nested
children, or `null` when the target is absent. -/
def findItemPath (tid : String) : List TreeN → Option (List TreeN)
  | [] => none
  | t :: rest =>
    if t.id = tid then some [t]
    else
      match findItemPath tid t.children with
      | some p => some (t :: p)
      | none => findItemPath tid rest
termination_by l => sizeOf l
decreasing_by
  · have h := TreeN.sizeOf_children_lt t
    simp only [List.cons.sizeOf_spec]
    omega
  · simp only [List.cons.sizeOf_spec]
    omega

/-- Embeds `utils.ts` `isItemEnabled`: resolve the root-to-item path, then fold the
inherited state over it — an id in `enabled` forces `true`, else an id in
`disabled` forces `false`, else the state passes through; the initial state
is `false`, and a missing path yields `false`. -/
def isItemEnabled (itemId : String) (cfg : TreeSyncConfig)
    (items : List TreeN) : Bool :=
  match findItemPath itemId items with
  | none => false
  | some path =>
    path.foldl
      (fun st t =>
        if t.id ∈ cfg.enabled then true
        else if t.id ∈ cfg.disabled then false
        else st)
      false

/-- The explicit override a record holds for one id, with the `enabled`
check first as in `isItemEnabled` (`some true` = force on, `some false` =
force off, `none` = no override). -/
def overrideOf (cfg : TreeSyncConfig) (id : String) : Option Bool :=
  if id ∈ cfg.enabled then some true
  else if id ∈ cfg.disabled then some false
  else none

/-- The value of the nearest (last) overridden entry of a root-to-node id
path, `none` when no entry carries an override. -/
def lastOverride (cfg : TreeSyncConfig) (ids : List String) : Option Bool :=
  ids.foldl
    (fun acc id => match overrideOf cfg id with | some b => some b | none => acc)
    none

/-- The legacy component's inline children filter: raw
`(it as any).parentId === itemId` (no falsy normalisation). -/
def legacyChildrenOf (items : List Item) (id : String) : List Item :=
  items.filter (fun it => it.parentId = some id)

/-- The legacy component's root filter:
`parentId === 'root' || !parentId`. -/
def legacyIsRoot (it : Item) : Bool :=
  it.parentId = some "root" || getParentId it = none

/-- Embeds `calculateState` of the legacy `checkedState` memo, value part (same
aggregation as the packaged one, over the raw-`parentId` children). -/
def legacyCalcState (items : List Item) (chk : List String) :
    Nat → Item → NodeState
  | 0, _ => { checked := false, indeterminate := false }
  | n + 1, it =>
    let children := legacyChildrenOf items it.id
    if children.isEmpty then
      { checked := it.id ∈ chk, indeterminate := false }
    else
      let childStates := children.map (legacyCalcState items chk n)
      let allChecked := childStates.all (fun s => s.checked && !s.indeterminate)
      let someChecked := childStates.any (fun s => s.checked || s.indeterminate)
      { checked := allChecked, indeterminate := someChecked && !allChecked }

/-- Embeds `calculateState` of the legacy memo, map-building part. -/
def legacyCalcStateMapFrom (items : List Item) (chk : List String) :
    Nat → Item → List (String × NodeState) → List (String × NodeState)
  | 0, _, m => m
  | n + 1, it, m =>
    let children := legacyChildrenOf items it.id
    if children.isEmpty then
      m ++ [(it.id, { checked := it.id ∈ chk, indeterminate := false })]
    else
      let m' := children.foldl (fun acc c => legacyCalcStateMapFrom items chk n c acc) m
      m' ++ [(it.id, legacyCalcState items chk (n + 1) it)]

/-- The legacy `checkedState` memo: traversal starts from the items whose
raw `parentId` is `'root'` or falsy. -/
def legacyCheckedStateMap (items : List Item) (chk : List String)
    (fuel : Nat) : List (String × NodeState) :=
  (items.filter legacyIsRoot).foldl
    (fun m r => legacyCalcStateMapFrom items chk fuel r m) []

/-- The `(isFullyChecked, isFullyUnchecked, isPartial)` flags the legacy
`processItem` derives from `checkedState.get(itemId)` (an absent entry
reads as unchecked, non-indeterminate). -/
def legacyFlags (s : Option NodeState) : Bool × Bool × Bool :=
  let isChecked := match s with | some st => st.checked | none => false
  let ind := match s with | some st => st.indeterminate | none => false
  (isChecked && !ind, !isChecked && !ind, ind)

/-- The `count` closure of the legacy `countDescendants`: a node with no
children contributes itself as a checked or unchecked leaf, an internal
node contributes its children's counts. -/
def legacyCountNode (items : List Item) (chk : List String) :
    Nat → Item → Nat × Nat
  | 0, _ => (0, 0)
  | n + 1, it =>
    let children := legacyChildrenOf items it.id
    if children.isEmpty then
      if it.id ∈ chk then (1, 0) else (0, 1)
    else
      children.foldl
        (fun acc c =>
          let r := legacyCountNode items chk n c
          (acc.1 + r.1, acc.2 + r.2))
        (0, 0)

/-- Legacy `countDescendants(item)`: leaf counts over the item's children
(the item itself is never counted). -/
def legacyCountDescendants (items : List Item) (chk : List String)
    (fuel : Nat) (it : Item) : Nat × Nat :=
  (legacyChildrenOf items it.id).foldl
    (fun acc c =>
      let r := legacyCountNode items chk fuel c
      (acc.1 + r.1, acc.2 + r.2))
    (0, 0)

/-- The legacy `processItem`: per-node majority-vote emission into the
`enabled` / `disabled` accumulators, keyed on the node's tri-state and the
`parentState` it is visited under.  The only recursive branch is the
top-level (`null`) partial case with a disabled-or-tied majority, which
processes the children under `'disabled'`. -/
def legacyProcessItem (items : List Item) (chk : List String)
    (cs : List (String × NodeState)) :
    Nat → Item → Option Action → List String × List String →
      List String × List String
  | 0, _, _, acc => acc
  | n + 1, it, pst, acc =>
    let children := legacyChildrenOf items it.id
    let flags := legacyFlags (nsGet cs it.id)
    let isFullyChecked := flags.1
    let isFullyUnchecked := flags.2.1
    let isPartial := flags.2.2
    match pst with
    | none =>
      if isFullyChecked then (acc.1 ++ [it.id], acc.2)
      else if isFullyUnchecked then acc
      else if isPartial then
        let counts := legacyCountDescendants items chk (n + 1) it
        if counts.1 ≤ counts.2 then
          children.foldl
            (fun a c => legacyProcessItem items chk cs n c (some .disabled) a) acc
        else (acc.1 ++ [it.id], acc.2)
      else acc
    | some .enabled =>
      if isFullyUnchecked then (acc.1, acc.2 ++ [it.id])
      else if isPartial then
        let counts := legacyCountDescendants items chk (n + 1) it
        if counts.2 ≤ counts.1 then acc else (acc.1, acc.2 ++ [it.id])
      else acc
    | some .disabled =>
      if isFullyChecked then (acc.1 ++ [it.id], acc.2)
      else if isFullyUnchecked then acc
      else if isPartial then
        let counts := legacyCountDescendants items chk (n + 1) it
        if counts.1 ≤ counts.2 then acc else (acc.1 ++ [it.id], acc.2)
      else acc

/-- Legacy `generateMinimalConfig`: `items.forEach(item =>
processItem(item, null))` over the whole flat array. -/
def legacyGenerateMinimalConfig (items : List Item) (chk : List String)
    (cs : List (String × NodeState)) (fuel : Nat) : TreeSyncConfig :=
  let r := items.foldl
    (fun acc it => legacyProcessItem items chk cs fuel it none acc) ([], [])
  { enabled := r.1, disabled := r.2 }

/-- Holds when `d` lies in the subtree of `a` (following loaded parent links), with no
explicit action recorded strictly below `a` on the connecting chain. -/
inductive Below (items : List Item) (acts : List (String × Action)) :
    Item → Item → Prop
  | refl (it : Item) : Below items acts it it
  | step (a c d : Item) (hc : c ∈ items) (hp : getParentId c = some a.id)
      (hov : alGet acts c.id = none) (hb : Below items acts c d) :
      Below items acts a d

/-- The root-to-node id path determined by the loaded parent links (an
unloaded or missing parent makes the node a traversal root). -/
def rootPathIds (items : List Item) : Nat → Item → List String
  | 0, it => [it.id]
  | n + 1, it =>
    match getParentId it with
    | none => [it.id]
    | some pid =>
      match items.find? (fun p => p.id = pid) with
      | none => [it.id]
      | some p => rootPathIds items n p ++ [it.id]

/-- The component states reachable by the selection logic: an external
record application followed by any sequence of user toggles. -/
inductive Reachable (items : List Item) (fuel : Nat) : TState → Prop
  | applyRecord (cfg : TreeSyncConfig) :
      Reachable items fuel (applyExternal items cfg fuel)
  | toggle (st : TState) (tid : String) (h : Reachable items fuel st) :
      Reachable items fuel (handleToggle items fuel st tid)

/-- The reconciliation invariant: the checked-id set is exactly the set of
loaded ids whose effective value under the current Edit Tracker is `true`,
and the tracker has duplicate-free keys. -/
def ConfigSync (items : List Item) (R : Nat) (st : TState) : Prop :=
  (∀ x, x ∈ st.checkedItems ↔
    ∃ it ∈ items, it.id = x ∧ effVal items st.explicitActions (R + 1) it = true)
  ∧ (st.explicitActions.map Prod.fst).Nodup

/-- One firing of the debounced emission effect: synthesize the record and
emit it only when `hasConfigChanged` holds against `previousConfigRef`
(returning the emitted record, if any, and the updated ref). -/
def emitStep (acts : List (String × Action)) (prev : Option TreeSyncConfig) :
    Option TreeSyncConfig × Option TreeSyncConfig :=
  let newC := generateMinimalConfig acts
  if hasConfigChanged newC prev then (some newC, some newC) else (none, prev)

/-! ## Basic lemmas about the embedded JS `Set` and `Map` operations -/

theorem mem_setAdd {s : List String} {x y : String} :
    y ∈ setAdd s x ↔ y = x ∨ y ∈ s := by
  unfold setAdd
  by_cases hx : x ∈ s
  · simp only [if_pos hx]
    constructor
    · exact fun h => Or.inr h
    · rintro (rfl | h)
      · exact hx
      · exact h
  · simp [if_neg hx, List.mem_append, or_comm]

theorem mem_setDelete {s : List String} {x y : String} :
    y ∈ setDelete s x ↔ y ∈ s ∧ y ≠ x := by
  simp [setDelete, List.mem_filter]

theorem alGet_nil {k : String} : alGet [] k = none := rfl

theorem alGet_cons {e : String × Action} {m : List (String × Action)}
    {k : String} :
    alGet (e :: m) k = if e.1 = k then some e.2 else alGet m k := by
  by_cases h : e.1 = k <;> simp [alGet, List.find?, h]

theorem alGet_alSet {m : List (String × Action)} {k k' : String} {v : Action} :
    alGet (alSet m k v) k' = if k' = k then some v else alGet m k' := by
  induction m with
  | nil =>
    simp only [alSet, alGet_cons, alGet_nil]
    by_cases h : k' = k
    · simp [h]
    · rw [if_neg (fun hc => h hc.symm), if_neg h]
  | cons e rest ih =>
    by_cases he : e.1 = k
    · simp only [alSet, if_pos he, alGet_cons]
      by_cases h : k' = k
      · simp [h]
      · rw [if_neg (fun hc => h hc.symm), if_neg h,
          if_neg (fun hc : e.1 = k' => h (hc ▸ he))]
    · simp only [alSet, if_neg he, alGet_cons, ih]
      by_cases h : e.1 = k'
      · rw [if_pos h, if_neg (fun hc : k' = k => he (hc ▸ h)), if_pos h]
      · rw [if_neg h, if_neg h]

theorem alGet_alDelete {m : List (String × Action)} {k k' : String} :
    alGet (alDelete m k) k' = if k' = k then none else alGet m k' := by
  induction m with
  | nil => simp [alDelete, alGet_nil]
  | cons e rest ih =>
    by_cases he : e.1 = k
    · have h0 : alDelete (e :: rest) k = alDelete rest k := by
        simp [alDelete, he]
      rw [h0, ih, alGet_cons]
      by_cases h : k' = k
      · simp [h]
      · rw [if_neg h, if_neg h, if_neg (fun hc : e.1 = k' => h (hc ▸ he))]
    · have h0 : alDelete (e :: rest) k = e :: alDelete rest k := by
        simp [alDelete, he]
      rw [h0, alGet_cons, alGet_cons, ih]
      by_cases h : e.1 = k'
      · rw [if_pos h, if_pos h, if_neg (fun hc : k' = k => he (hc ▸ h))]
      · rw [if_neg h, if_neg h]

theorem alGet_foldl_alDelete {l : List String} {m : List (String × Action)}
    {k : String} :
    alGet (l.foldl (fun m d => alDelete m d) m) k =
      if k ∈ l then none else alGet m k := by
  induction l generalizing m with
  | nil => simp
  | cons d rest ih =>
    simp only [List.foldl_cons, ih]
    by_cases hd : k = d
    · subst hd
      simp [alGet_alDelete]
    · by_cases hr : k ∈ rest <;> simp [hr, hd, alGet_alDelete]

theorem alGet_foldl_alSet {l : List String} {m : List (String × Action)}
    {k : String} {a : Action} :
    alGet (l.foldl (fun m id => alSet m id a) m) k =
      if k ∈ l then some a else alGet m k := by
  induction l generalizing m with
  | nil => simp
  | cons d rest ih =>
    simp only [List.foldl_cons, ih]
    by_cases hd : k = d
    · subst hd
      by_cases hr : k ∈ rest <;> simp [hr, alGet_alSet]
    · by_cases hr : k ∈ rest <;> simp [hr, hd, alGet_alSet]

/-- What `buildActions` records for one id: a `disabled` entry wins over an
`enabled` one because the `disabled.forEach` loop runs second. -/
theorem alGet_buildActions {cfg : TreeSyncConfig} {k : String} :
    alGet (buildActions cfg) k =
      if k ∈ cfg.disabled then some .disabled
      else if k ∈ cfg.enabled then some .enabled
      else none := by
  unfold buildActions
  rw [alGet_foldl_alSet]
  by_cases hd : k ∈ cfg.disabled
  · simp [hd]
  · rw [alGet_foldl_alSet]
    by_cases he : k ∈ cfg.enabled <;> simp [hd, he, alGet_nil]

theorem mem_alSet {m : List (String × Action)} {k : String} {v : Action}
    {p : String × Action} (hp : p ∈ alSet m k v) : p ∈ m ∨ p = (k, v) := by
  induction m with
  | nil =>
    simp only [alSet, List.mem_singleton] at hp
    exact Or.inr hp
  | cons e rest ih =>
    simp only [alSet] at hp
    by_cases hf : e.1 = k
    · rw [if_pos hf] at hp
      rcases List.mem_cons.mp hp with rfl | hp
      · exact Or.inr rfl
      · exact Or.inl (List.mem_cons_of_mem _ hp)
    · rw [if_neg hf] at hp
      rcases List.mem_cons.mp hp with rfl | hp
      · exact Or.inl (List.mem_cons_self _ _)
      · rcases ih hp with h1 | h1
        · exact Or.inl (List.mem_cons_of_mem _ h1)
        · exact Or.inr h1

theorem alSet_keys_nodup {m : List (String × Action)} {k : String} {v : Action}
    (h : (m.map Prod.fst).Nodup) : ((alSet m k v).map Prod.fst).Nodup := by
  induction m with
  | nil => simp [alSet]
  | cons e rest ih =>
    simp only [List.map_cons, List.nodup_cons] at h
    by_cases he : e.1 = k
    · simp only [alSet, if_pos he, List.map_cons, List.nodup_cons]
      exact ⟨he ▸ h.1, h.2⟩
    · simp only [alSet, if_neg he, List.map_cons, List.nodup_cons]
      refine ⟨?_, ih h.2⟩
      intro hc
      rcases List.mem_map.mp hc with ⟨p, hp, hpe⟩
      rcases mem_alSet hp with hm | rfl
      · exact h.1 (hpe ▸ List.mem_map_of_mem Prod.fst hm)
      · exact he hpe.symm

theorem alDelete_keys_nodup {m : List (String × Action)} {k : String}
    (h : (m.map Prod.fst).Nodup) : ((alDelete m k).map Prod.fst).Nodup := by
  exact List.Nodup.sublist (List.Sublist.map Prod.fst (List.filter_sublist m)) h

theorem foldl_alDelete_keys_nodup {l : List String} {m : List (String × Action)}
    (h : (m.map Prod.fst).Nodup) :
    (((l.foldl (fun m d => alDelete m d) m)).map Prod.fst).Nodup := by
  induction l generalizing m with
  | nil => simpa using h
  | cons d rest ih => exact ih (alDelete_keys_nodup h)

theorem buildActions_keys_nodup {cfg : TreeSyncConfig} :
    ((buildActions cfg).map Prod.fst).Nodup := by
  have base : ∀ (l : List String) (m : List (String × Action)),
      (m.map Prod.fst).Nodup → ∀ a,
      ((l.foldl (fun m id => alSet m id a) m).map Prod.fst).Nodup := by
    intro l
    induction l with
    | nil => intro m hm a; simpa using hm
    | cons d rest ih => intro m hm a; exact ih _ (alSet_keys_nodup hm) a
  exact base _ _ (base _ [] (by simp) .enabled) .disabled

/-! ## Synthesis and lookup lemmas -/

theorem mem_generateMinimalConfig_enabled {acts : List (String × Action)}
    {k : String} :
    k ∈ (generateMinimalConfig acts).enabled ↔ (k, Action.enabled) ∈ acts := by
  simp only [generateMinimalConfig, List.mem_filterMap]
  constructor
  · rintro ⟨e, he, hk⟩
    by_cases h : e.2 = Action.enabled
    · rw [if_pos h] at hk
      cases hk
      have : e = (e.1, e.2) := rfl
      rw [this, h] at he
      exact he
    · rw [if_neg h] at hk
      cases hk
  · intro h
    exact ⟨(k, Action.enabled), h, by simp⟩

theorem mem_generateMinimalConfig_disabled {acts : List (String × Action)}
    {k : String} :
    k ∈ (generateMinimalConfig acts).disabled ↔ (k, Action.disabled) ∈ acts := by
  simp only [generateMinimalConfig, List.mem_filterMap]
  constructor
  · rintro ⟨e, he, hk⟩
    by_cases h : e.2 = Action.disabled
    · rw [if_pos h] at hk
      cases hk
      have : e = (e.1, e.2) := rfl
      rw [this, h] at he
      exact he
    · rw [if_neg h] at hk
      cases hk
  · intro h
    exact ⟨(k, Action.disabled), h, by simp⟩

/-- With duplicate-free keys, map membership and `alGet` agree. -/
theorem alGet_eq_some_iff_mem {acts : List (String × Action)} {k : String}
    {a : Action} (hn : (acts.map Prod.fst).Nodup) :
    alGet acts k = some a ↔ (k, a) ∈ acts := by
  induction acts with
  | nil => simp [alGet_nil]
  | cons e rest ih =>
    rcases e with ⟨e1, e2⟩
    simp only [List.map_cons, List.nodup_cons] at hn
    rw [alGet_cons]
    by_cases he : e1 = k
    · subst he
      rw [if_pos rfl]
      constructor
      · intro h
        cases h
        exact List.mem_cons_self _ _
      · intro h
        rcases List.mem_cons.mp h with h | h
        · cases h
          rfl
        · exact absurd (List.mem_map_of_mem Prod.fst h) hn.1
    · rw [if_neg he, ih hn.2]
      constructor
      · exact fun h => List.mem_cons_of_mem _ h
      · intro h
        rcases List.mem_cons.mp h with h | h
        · cases h
          exact absurd rfl he
        · exact h

/-- Splitting the tracker into a record and rebuilding the map from that
record is the identity on lookups when keys are duplicate-free. -/
theorem alGet_buildActions_generateMinimalConfig
    {acts : List (String × Action)} (hn : (acts.map Prod.fst).Nodup)
    (k : String) :
    alGet (buildActions (generateMinimalConfig acts)) k = alGet acts k := by
  rw [alGet_buildActions]
  by_cases hd : k ∈ (generateMinimalConfig acts).disabled
  · rw [if_pos hd]
    exact ((alGet_eq_some_iff_mem hn).mpr
      (mem_generateMinimalConfig_disabled.mp hd)).symm
  · rw [if_neg hd]
    by_cases he : k ∈ (generateMinimalConfig acts).enabled
    · rw [if_pos he]
      exact ((alGet_eq_some_iff_mem hn).mpr
        (mem_generateMinimalConfig_enabled.mp he)).symm
    · rw [if_neg he]
      cases hk : alGet acts k with
      | none => rfl
      | some a =>
        cases a
        · exact absurd (mem_generateMinimalConfig_enabled.mpr
            ((alGet_eq_some_iff_mem hn).mp hk)) he
        · exact absurd (mem_generateMinimalConfig_disabled.mpr
            ((alGet_eq_some_iff_mem hn).mp hk)) hd

/-- On a store with duplicate-free ids, the direct `find` of
`findItemInFlat` locates exactly the member item. -/
theorem find?_of_mem_nodup {items : List Item} {p : Item} (hp : p ∈ items)
    (hn : (items.map Item.id).Nodup) :
    items.find? (fun it => it.id = p.id) = some p := by
  induction items with
  | nil => cases hp
  | cons it rest ih =>
    simp only [List.map_cons, List.nodup_cons] at hn
    rcases List.mem_cons.mp hp with rfl | hp
    · simp [List.find?]
    · have hne : ¬ it.id = p.id := by
        intro hc
        exact hn.1 (hc ▸ List.mem_map_of_mem Item.id hp)
      rw [List.find?_cons_of_neg _ (by simpa using hne)]
      exact ih hp hn.2

theorem find?_id_mem {items : List Item} {tid : String} {p : Item}
    (h : items.find? (fun it => it.id = tid) = some p) :
    p ∈ items ∧ p.id = tid := by
  refine ⟨List.mem_of_find?_eq_some h, ?_⟩
  have := List.find?_some h
  simpa using this

/-- Two ids, both naming members of a duplicate-free store, name the same
item. -/
theorem id_inj_of_nodup {items : List Item} {p q : Item} (hp : p ∈ items)
    (hq : q ∈ items) (hn : (items.map Item.id).Nodup) (h : p.id = q.id) :
    p = q := by
  have h1 := find?_of_mem_nodup hp hn
  have h2 := find?_of_mem_nodup hq hn
  rw [← h] at h2
  rw [h1] at h2
  exact Option.some.inj h2

/-! ## The well-formedness assumption: ranked (acyclic) stores -/

/-- A well-formed Node Store: duplicate-free ids together with a rank
function bounded by `R` that strictly decreases from any member item to its
member parent.  Such a rank exists exactly when no node is its own
ancestor, which is the forest assumption the source code's recursive walks
rely on. -/
structure RankedStore (items : List Item) (rank : String → Nat) (R : Nat) :
    Prop where
  nodupIds : (items.map Item.id).Nodup
  rank_le : ∀ it ∈ items, rank it.id ≤ R
  parent_lt : ∀ it ∈ items, ∀ p ∈ items, getParentId it = some p.id →
    rank p.id < rank it.id

theorem RankedStore.child_rank_lt {items : List Item} {rank : String → Nat}
    {R : Nat} (hws : RankedStore items rank R) {a c : Item} (ha : a ∈ items)
    (hc : c ∈ items) (hp : getParentId c = some a.id) :
    rank a.id < rank c.id :=
  hws.parent_lt c hc a ha hp

theorem mem_childrenOf {items : List Item} {id : String} {c : Item} :
    c ∈ childrenOf items id ↔ c ∈ items ∧ getParentId c = some id := by
  simp [childrenOf, getChildrenFromFlat, List.mem_filter]

theorem childrenOf_subset {items : List Item} {id : String} :
    ∀ c ∈ childrenOf items id, c ∈ items :=
  fun _ hc => (mem_childrenOf.mp hc).1

/-! ## Fuel stability and congruence of `effVal` -/

/-- The function `effVal` only consults the actions map through `alGet`. -/
theorem effVal_congr {items : List Item} {a1 a2 : List (String × Action)}
    (h : ∀ k, alGet a1 k = alGet a2 k) :
    ∀ n it, effVal items a1 n it = effVal items a2 n it := by
  intro n
  induction n with
  | zero => intro it; simp [effVal, travFlag, h it.id]
  | succ n ih =>
    intro it
    cases hpar : getParentId it with
    | none => simp [effVal, travFlag, h it.id, hpar]
    | some pid =>
      cases hfind : items.find? (fun p => p.id = pid) with
      | none => simp [effVal, travFlag, h it.id, hpar, hfind]
      | some p => simp [effVal, travFlag, h it.id, hpar, hfind, ih p]

/-- On a ranked store the result of `effVal` is independent of the fuel as
soon as the fuel exceeds the item's rank. -/
theorem effVal_stable {items : List Item} {rank : String → Nat} {R : Nat}
    (hws : RankedStore items rank R) (acts : List (String × Action)) :
    ∀ n m it, it ∈ items → rank it.id < n → rank it.id < m →
      effVal items acts n it = effVal items acts m it := by
  intro n
  induction n with
  | zero => intro m it _ h; omega
  | succ n ih =>
    intro m it hit hn hm
    cases m with
    | zero => omega
    | succ m =>
      cases hpar : getParentId it with
      | none => simp [effVal, travFlag, hpar]
      | some pid =>
        cases hfind : items.find? (fun p => p.id = pid) with
        | none => simp [effVal, travFlag, hpar, hfind]
        | some p =>
          obtain ⟨hpmem, hpid⟩ := find?_id_mem hfind
          have hlt : rank p.id < rank it.id :=
            hws.parent_lt it hit p hpmem (hpid ▸ hpar)
          simp [effVal, travFlag, hpar, hfind, ih m p hpmem (by omega) (by omega)]

/-! ## Correctness of the apply-config traversal -/

theorem applyConfigList_zero {items : List Item} {acts : List (String × Action)}
    {l : List Item} {pE : Bool} {chk : List String} :
    applyConfigList items acts 0 l pE chk = chk := rfl

theorem applyConfigList_nil {items : List Item} {acts : List (String × Action)}
    {n : Nat} {pE : Bool} {chk : List String} :
    applyConfigList items acts (n + 1) [] pE chk = chk := rfl

theorem applyConfigList_cons {items : List Item} {acts : List (String × Action)}
    {n : Nat} {it : Item} {rest : List Item} {pE : Bool} {chk : List String} :
    applyConfigList items acts (n + 1) (it :: rest) pE chk =
      applyConfigList items acts (n + 1) rest pE
        (applyConfigList items acts n (childrenOf items it.id)
          (travFlag acts pE it)
          (if travFlag acts pE it then setAdd chk it.id else chk)) := rfl

theorem applyConfigList_mono {items : List Item} {acts : List (String × Action)} :
    ∀ n l pE chk x, x ∈ chk → x ∈ applyConfigList items acts n l pE chk := by
  intro n
  induction n with
  | zero => intro l pE chk x hx; simpa [applyConfigList_zero] using hx
  | succ n ih =>
    intro l
    induction l with
    | nil => intro pE chk x hx; simpa [applyConfigList_nil] using hx
    | cons it rest ihl =>
      intro pE chk x hx
      rw [applyConfigList_cons]
      apply ihl
      apply ih
      by_cases he : travFlag acts pE it
      · rw [if_pos he]
        exact mem_setAdd.mpr (Or.inr hx)
      · rwa [if_neg he]

/-- A node whose traversal flag came out `true` really has effective value
`true`, provided an inherited `true` flag is justified by the parent. -/
theorem travFlag_true_effVal {items : List Item} {rank : String → Nat}
    {R : Nat} (hws : RankedStore items rank R)
    {acts : List (String × Action)} {pE : Bool} {it : Item} (hit : it ∈ items)
    (he : travFlag acts pE it = true)
    (hpe : pE = true → ∃ pid p, getParentId it = some pid ∧
      items.find? (fun q => q.id = pid) = some p ∧
      effVal items acts (R + 1) p = true) :
    effVal items acts (R + 1) it = true := by
  unfold travFlag at he
  cases hag : alGet acts it.id with
  | some a =>
    cases a
    · simp [effVal, travFlag, hag]
    · rw [hag] at he
      cases he
  | none =>
    rw [hag] at he
    obtain ⟨pid, p, hpar, hfind, heff⟩ := hpe he
    obtain ⟨hpmem, hpid⟩ := find?_id_mem hfind
    have hlt : rank p.id < rank it.id :=
      hws.parent_lt it hit p hpmem (hpid ▸ hpar)
    have hle : rank it.id ≤ R := hws.rank_le it hit
    have hstab : effVal items acts R p = effVal items acts (R + 1) p :=
      effVal_stable hws acts R (R + 1) p hpmem (by omega) (by omega)
    have hun : effVal items acts (R + 1) it = effVal items acts R p := by
      simp only [effVal, travFlag, hag, hpar, hfind]
    rw [hun, hstab, heff]

/-- Soundness of the traversal: every id it adds to the checked set names a
loaded item with effective value `true`. -/
theorem applyConfigList_sound {items : List Item} {rank : String → Nat}
    {R : Nat} (hws : RankedStore items rank R)
    (acts : List (String × Action)) :
    ∀ n l pE chk x, (∀ it ∈ l, it ∈ items) →
      (pE = true → ∀ it ∈ l, ∃ pid p, getParentId it = some pid ∧
        items.find? (fun q => q.id = pid) = some p ∧
        effVal items acts (R + 1) p = true) →
      x ∈ applyConfigList items acts n l pE chk →
      x ∈ chk ∨ ∃ it ∈ items, it.id = x ∧ effVal items acts (R + 1) it = true := by
  intro n
  induction n with
  | zero =>
    intro l pE chk x _ _ hx
    exact Or.inl (by simpa [applyConfigList_zero] using hx)
  | succ n ih =>
    intro l
    induction l with
    | nil =>
      intro pE chk x _ _ hx
      exact Or.inl (by simpa [applyConfigList_nil] using hx)
    | cons it rest ihl =>
      intro pE chk x hsub hpe hx
      rw [applyConfigList_cons] at hx
      have hitm : it ∈ items := hsub it (List.mem_cons_self _ _)
      have hstep : travFlag acts pE it = true →
          effVal items acts (R + 1) it = true := by
        intro he
        exact travFlag_true_effVal hws hitm he
          (fun hp => hpe hp it (List.mem_cons_self _ _))
      rcases ihl pE _ x (fun i hi => hsub i (List.mem_cons_of_mem _ hi))
          (fun hp i hi => hpe hp i (List.mem_cons_of_mem _ hi)) hx with h | h
      · rcases ih (childrenOf items it.id) (travFlag acts pE it) _ x
            childrenOf_subset
            (fun hp c hc => by
              obtain ⟨hcm, hcp⟩ := mem_childrenOf.mp hc
              exact ⟨it.id, it, hcp, find?_of_mem_nodup hitm hws.nodupIds,
                hstep hp⟩) h with h2 | h2
        · by_cases he : travFlag acts pE it
          · rw [if_pos he] at h2
            rcases mem_setAdd.mp h2 with rfl | h3
            · exact Or.inr ⟨it, hitm, rfl, hstep he⟩
            · exact Or.inl h3
          · rw [if_neg he] at h2
            exact Or.inl h2
        · exact Or.inr h2
      · exact Or.inr h

theorem Below.snoc {items : List Item} {acts : List (String × Action)}
    {a p : Item} (h : Below items acts a p) :
    ∀ {d : Item}, d ∈ items → getParentId d = some p.id →
      alGet acts d.id = none → Below items acts a d := by
  induction h with
  | refl it =>
    intro d hd hp hov
    exact Below.step it d d hd hp hov (Below.refl d)
  | step a c p' hc hpc hovc _ ihc =>
    intro d hd hp hov
    exact Below.step a c d hc hpc hovc (ihc hd hp hov)

/-- Completeness direction, extraction half: a `true` effective value is
always produced by an `'enabled'` ancestor with an override-free chain down
to the node. -/
theorem effVal_extract {items : List Item} {rank : String → Nat} {R : Nat}
    (hws : RankedStore items rank R) (acts : List (String × Action)) :
    ∀ n it, it ∈ items → effVal items acts n it = true →
      ∃ a, a ∈ items ∧ alGet acts a.id = some .enabled ∧
        Below items acts a it := by
  intro n
  induction n with
  | zero =>
    intro it hit heff
    cases hag : alGet acts it.id with
    | some a =>
      cases a
      · exact ⟨it, hit, hag, Below.refl it⟩
      · simp [effVal, travFlag, hag] at heff
    | none => simp [effVal, travFlag, hag] at heff
  | succ n ih =>
    intro it hit heff
    cases hag : alGet acts it.id with
    | some a =>
      cases a
      · exact ⟨it, hit, hag, Below.refl it⟩
      · simp [effVal, travFlag, hag] at heff
    | none =>
      cases hpar : getParentId it with
      | none => simp [effVal, travFlag, hag, hpar] at heff
      | some pid =>
        cases hfind : items.find? (fun p => p.id = pid) with
        | none => simp [effVal, travFlag, hag, hpar, hfind] at heff
        | some p =>
          simp only [effVal, travFlag, hag, hpar, hfind] at heff
          obtain ⟨hpmem, hpid⟩ := find?_id_mem hfind
          obtain ⟨a, ham, hag2, hb⟩ := ih p hpmem heff
          exact ⟨a, ham, hag2, hb.snoc hit (hpid ▸ hpar) hag⟩

/-- Completeness direction, reachability half: an `'enabled'` node reached
by the traversal puts every node of its override-free subtree chain into
the checked set. -/
theorem applyConfigList_reaches {items : List Item} {rank : String → Nat}
    {R : Nat} (hws : RankedStore items rank R)
    (acts : List (String × Action)) :
    ∀ n l pE chk a d, (∀ it ∈ l, it ∈ items) → a ∈ l →
      Below items acts a d →
      (alGet acts a.id = some .enabled ∨
        (alGet acts a.id = none ∧ pE = true)) →
      (∀ it ∈ l, R < n + rank it.id) →
      d.id ∈ applyConfigList items acts n l pE chk := by
  intro n
  induction n with
  | zero =>
    intro l pE chk a d hsub ha _ _ hfuel
    have h1 := hfuel a ha
    have h2 := hws.rank_le a (hsub a ha)
    omega
  | succ n ih =>
    intro l
    induction l with
    | nil =>
      intro pE chk a d _ ha
      cases ha
    | cons it rest ihl =>
      intro pE chk a d hsub ha hb hgood hfuel
      rw [applyConfigList_cons]
      rcases List.mem_cons.mp ha with rfl | ha
      · have hitm : a ∈ items := hsub a (List.mem_cons_self _ _)
        have he : travFlag acts pE a = true := by
          rcases hgood with hg | ⟨hg, rfl⟩
          · simp [travFlag, hg]
          · simp [travFlag, hg]
        rw [if_pos he]
        cases hb with
        | refl =>
          apply applyConfigList_mono
          apply applyConfigList_mono
          exact mem_setAdd.mpr (Or.inl rfl)
        | step a c d hc hpc hovc hbc =>
          apply applyConfigList_mono
          exact ih (childrenOf items a.id) (travFlag acts pE a) _ c d
            childrenOf_subset (mem_childrenOf.mpr ⟨hc, hpc⟩) hbc
            (Or.inr ⟨hovc, he⟩)
            (fun ch hch => by
              obtain ⟨hchm, hchp⟩ := mem_childrenOf.mp hch
              have := hws.child_rank_lt hitm hchm hchp
              have := hfuel a (List.mem_cons_self _ _)
              omega)
      · exact ihl pE _ a d (fun i hi => hsub i (List.mem_cons_of_mem _ hi)) ha
          hb hgood (fun i hi => hfuel i (List.mem_cons_of_mem _ hi))

/-- Characterisation of the apply-config traversal on a ranked store: the
checked set it builds from an empty set holds exactly the loaded ids whose
effective value is `true`. -/
theorem applyConfig_checked_iff {items : List Item} {rank : String → Nat}
    {R : Nat} (hws : RankedStore items rank R)
    (acts : List (String × Action)) {f : Nat} (hf : R < f) (x : String) :
    x ∈ applyConfigList items acts f items false [] ↔
      ∃ it ∈ items, it.id = x ∧ effVal items acts (R + 1) it = true := by
  constructor
  · intro hx
    rcases applyConfigList_sound hws acts f items false [] x
        (fun _ h => h) (fun h => by cases h) hx with h | h
    · cases h
    · exact h
  · rintro ⟨it, hit, rfl, heff⟩
    obtain ⟨a, ham, hag, hb⟩ := effVal_extract hws acts (R + 1) it hit heff
    exact applyConfigList_reaches hws acts f items false [] a it
      (fun _ h => h) ham hb (Or.inl hag)
      (fun i hi => by have := hws.rank_le i hi; omega)

/-! ## The descendant walk and the toggle update -/

theorem flatMap_congr {l : List Item} {f g : Item → List String}
    (h : ∀ c ∈ l, f c = g c) : l.flatMap f = l.flatMap g := by
  induction l with
  | nil => rfl
  | cons c rest ih =>
    simp only [List.flatMap_cons]
    rw [h c (List.mem_cons_self _ _), ih (fun c hc => h c (List.mem_cons_of_mem _ hc))]

/-- The descendant collection is the union of the children's toggle
coverages. -/
theorem collectDescendants_eq_flatMap {items : List Item} :
    ∀ n it, collectDescendants items n it =
      (childrenOf items it.id).flatMap (covIds items n) := by
  intro n
  induction n with
  | zero =>
    intro it
    simp [collectDescendants, covIds]
  | succ n ih =>
    intro it
    simp only [collectDescendants]
    apply flatMap_congr
    intro c _
    simp [covIds, ih c]

theorem covIds_succ {items : List Item} {n : Nat} {it : Item} :
    covIds items (n + 1) it = it.id :: collectDescendants items n it := by
  simp [covIds, collectDescendants_eq_flatMap]

/-- Membership after `toggleItemsRecursively`: everything in the coverage
is forced to the new value, everything else keeps its old membership. -/
theorem mem_toggleItemsRecursively {items : List Item} :
    ∀ n it b chk x, x ∈ toggleItemsRecursively items n it b chk ↔
      (if x ∈ covIds items n it then b = true else x ∈ chk) := by
  intro n
  induction n with
  | zero =>
    intro it b chk x
    simp [toggleItemsRecursively, covIds]
  | succ n ih =>
    intro it b chk x
    have hfold : ∀ (l : List Item) (s : List String),
        x ∈ l.foldl (fun acc c => toggleItemsRecursively items n c b acc) s ↔
          (if x ∈ l.flatMap (covIds items n) then b = true else x ∈ s) := by
      intro l
      induction l with
      | nil => intro s; simp
      | cons c cl ihl =>
        intro s
        simp only [List.foldl_cons, List.flatMap_cons, List.mem_append]
        rw [ihl, ih c b s x]
        by_cases h1 : x ∈ covIds items n c <;>
          by_cases h2 : x ∈ cl.flatMap (covIds items n) <;>
            simp [h1, h2]
    show x ∈ (childrenOf items it.id).foldl _ _ ↔ _
    rw [hfold]
    simp only [covIds, List.mem_cons]
    by_cases h2 : x ∈ (childrenOf items it.id).flatMap (covIds items n)
    · simp [h2]
    · by_cases h1 : x = it.id
      · subst h1
        cases b <;> simp [h2, mem_setAdd, mem_setDelete]
      · cases b <;> simp [h1, h2, mem_setAdd, mem_setDelete]

/-- Every collected descendant id names a loaded item of strictly larger
rank than the start node. -/
theorem collectDescendants_rank {items : List Item} {rank : String → Nat}
    {R : Nat} (hws : RankedStore items rank R) :
    ∀ n it, it ∈ items → ∀ y ∈ collectDescendants items n it,
      (∃ d ∈ items, d.id = y) ∧ rank it.id < rank y := by
  intro n
  induction n with
  | zero =>
    intro it _ y hy
    simp [collectDescendants] at hy
  | succ n ih =>
    intro it hit y hy
    simp only [collectDescendants, List.mem_flatMap] at hy
    obtain ⟨c, hc, hyc⟩ := hy
    obtain ⟨hcm, hcp⟩ := mem_childrenOf.mp hc
    have hlt := hws.child_rank_lt hit hcm hcp
    rcases List.mem_cons.mp hyc with rfl | hyc
    · exact ⟨⟨c, hcm, rfl⟩, hlt⟩
    · obtain ⟨hex, hlt2⟩ := ih c hcm y hyc
      exact ⟨hex, by omega⟩

theorem self_not_mem_collectDescendants {items : List Item}
    {rank : String → Nat} {R : Nat} (hws : RankedStore items rank R)
    {n : Nat} {it : Item} (hit : it ∈ items) :
    it.id ∉ collectDescendants items n it := by
  intro h
  have := (collectDescendants_rank hws n it hit it.id h).2
  omega

theorem child_id_mem_collectDescendants {items : List Item} {n : Nat}
    {X c : Item} (hc : c ∈ childrenOf items X.id) :
    c.id ∈ collectDescendants items (n + 1) X := by
  simp only [collectDescendants, List.mem_flatMap]
  exact ⟨c, hc, List.mem_cons_self _ _⟩

theorem collectDescendants_child_sub {items : List Item} {n : Nat}
    {X c : Item} (hc : c ∈ childrenOf items X.id) {y : String}
    (hy : y ∈ collectDescendants items n c) :
    y ∈ collectDescendants items (n + 1) X := by
  simp only [collectDescendants, List.mem_flatMap]
  exact ⟨c, hc, List.mem_cons_of_mem _ hy⟩

/-- Every collected descendant has a loaded parent that is the start node
or itself a collected descendant. -/
theorem collectDescendants_parent {items : List Item} :
    ∀ n X, X ∈ items → ∀ y ∈ collectDescendants items n X,
      ∃ c p, c ∈ items ∧ c.id = y ∧ p ∈ items ∧ getParentId c = some p.id ∧
        (p.id = X.id ∨ p.id ∈ collectDescendants items n X) := by
  intro n
  induction n with
  | zero =>
    intro X _ y hy
    simp [collectDescendants] at hy
  | succ n ih =>
    intro X hX y hy
    simp only [collectDescendants, List.mem_flatMap] at hy
    obtain ⟨ch, hch, hych⟩ := hy
    obtain ⟨hchm, hchp⟩ := mem_childrenOf.mp hch
    rcases List.mem_cons.mp hych with rfl | hy2
    · exact ⟨ch, X, hchm, rfl, hX, hchp, Or.inl rfl⟩
    · obtain ⟨c, p, hcm, hcy, hpm, hcp, hdisj⟩ := ih ch hchm y hy2
      refine ⟨c, p, hcm, hcy, hpm, hcp, Or.inr ?_⟩
      rcases hdisj with h | h
      · exact h ▸ child_id_mem_collectDescendants hch
      · exact collectDescendants_child_sub hch h

/-- A loaded child of a collected descendant is itself collected, one fuel
level deeper. -/
theorem collectDescendants_closed {items : List Item} :
    ∀ n X y z, y ∈ collectDescendants items n X → z ∈ items →
      getParentId z = some y → z.id ∈ collectDescendants items (n + 1) X := by
  intro n
  induction n with
  | zero =>
    intro X y z hy
    simp [collectDescendants] at hy
  | succ n ih =>
    intro X y z hy hz hzp
    simp only [collectDescendants, List.mem_flatMap] at hy
    obtain ⟨ch, hch, hych⟩ := hy
    rcases List.mem_cons.mp hych with rfl | hy2
    · have hzc : z ∈ childrenOf items ch.id := mem_childrenOf.mpr ⟨hz, hzp⟩
      exact collectDescendants_child_sub hch (child_id_mem_collectDescendants hzc)
    · exact collectDescendants_child_sub hch (ih ch y z hy2 hz hzp)

/-- Fuel irrelevance of the descendant collection on ranked stores. -/
theorem collectDescendants_stable {items : List Item} {rank : String → Nat}
    {R : Nat} (hws : RankedStore items rank R) :
    ∀ n m it, it ∈ items → R < n + rank it.id → R < m + rank it.id →
      collectDescendants items n it = collectDescendants items m it := by
  intro n
  induction n with
  | zero =>
    intro m it hit hn _
    have := hws.rank_le it hit
    omega
  | succ n ih =>
    intro m it hit hn hm
    cases m with
    | zero =>
      have := hws.rank_le it hit
      omega
    | succ m =>
      simp only [collectDescendants]
      apply flatMap_congr
      intro c hc
      obtain ⟨hcm, hcp⟩ := mem_childrenOf.mp hc
      have hlt := hws.child_rank_lt hit hcm hcp
      rw [ih m c hcm (by omega) (by omega)]

/-- Effect of a toggle on the tracker lookups: every collected descendant
loses its entry, the toggled node gets the new action, everything else is
untouched. -/
theorem alGet_after_toggle {items : List Item} {acts : List (String × Action)}
    {X : Item} {av : Action} {f : Nat} (y : String) :
    alGet ((collectDescendants items f X).foldl (fun m dd => alDelete m dd)
        (alSet acts X.id av)) y =
      if y ∈ collectDescendants items f X then none
      else if y = X.id then some av else alGet acts y := by
  rw [alGet_foldl_alDelete]
  by_cases h1 : y ∈ collectDescendants items f X
  · simp [h1]
  · simp [h1, alGet_alSet]

/-- Toggling node `X` to action `av` makes the effective value of every
node in `X`'s loaded subtree equal to the toggled value and leaves every
other node's effective value unchanged. -/
theorem effVal_after_toggle {items : List Item} {rank : String → Nat}
    {R : Nat} (hws : RankedStore items rank R)
    (acts : List (String × Action)) {X : Item} (hX : X ∈ items) (av : Action)
    {f : Nat} (hf : R < f) :
    ∀ d ∈ items,
      effVal items
        ((collectDescendants items f X).foldl (fun m dd => alDelete m dd)
          (alSet acts X.id av)) (R + 1) d =
      if d.id ∈ X.id :: collectDescendants items f X then
        decide (av = Action.enabled)
      else effVal items acts (R + 1) d := by
  obtain ⟨f', rfl⟩ : ∃ f', f = f' + 1 := ⟨f - 1, by omega⟩
  set acts' := (collectDescendants items (f' + 1) X).foldl
    (fun m dd => alDelete m dd) (alSet acts X.id av) with hacts'
  suffices H : ∀ k, ∀ d ∈ items, rank d.id = k →
      effVal items acts' (R + 1) d =
        (if d.id ∈ X.id :: collectDescendants items (f' + 1) X then
          decide (av = Action.enabled)
        else effVal items acts (R + 1) d) by
    intro d hd
    exact H (rank d.id) d hd rfl
  intro k
  induction k using Nat.strong_induction_on with
  | _ k ihk =>
    intro d hd hrk
    have hdR : rank d.id ≤ R := hws.rank_le d hd
    by_cases h1 : d.id = X.id
    · have hnotin : d.id ∉ collectDescendants items (f' + 1) X :=
        h1 ▸ self_not_mem_collectDescendants hws hX
      have hgd : alGet acts' d.id = some av := by
        rw [hacts', alGet_after_toggle, if_neg hnotin, if_pos h1]
      rw [if_pos (List.mem_cons.mpr (Or.inl h1))]
      cases av <;> simp [effVal, travFlag, hgd]
    · by_cases h2 : d.id ∈ collectDescendants items (f' + 1) X
      · rw [if_pos (List.mem_cons.mpr (Or.inr h2))]
        have hgd : alGet acts' d.id = none := by
          rw [hacts', alGet_after_toggle, if_pos h2]
        obtain ⟨c, p, hcm, hcy, hpm, hcp, hdisj⟩ :=
          collectDescendants_parent (f' + 1) X hX d.id h2
        have hcd : c = d := id_inj_of_nodup hcm hd hws.nodupIds hcy
        subst hcd
        have hfind : items.find? (fun q => q.id = p.id) = some p :=
          find?_of_mem_nodup hpm hws.nodupIds
        have hlt : rank p.id < rank c.id := hws.parent_lt c hd p hpm hcp
        have hpin : p.id ∈ X.id :: collectDescendants items (f' + 1) X :=
          List.mem_cons.mpr hdisj
        have hIH := ihk (rank p.id) (hrk ▸ hlt) p hpm rfl
        rw [if_pos hpin] at hIH
        have hun : effVal items acts' (R + 1) c = effVal items acts' R p := by
          simp only [effVal, travFlag, hgd, hcp, hfind]
        have hstab : effVal items acts' R p = effVal items acts' (R + 1) p :=
          effVal_stable hws acts' R (R + 1) p hpm (by omega) (by omega)
        rw [hun, hstab, hIH]
      · rw [if_neg (by
          intro hc
          rcases List.mem_cons.mp hc with hc1 | hc2
          · exact h1 hc1
          · exact h2 hc2)]
        have hgd : alGet acts' d.id = alGet acts d.id := by
          rw [hacts', alGet_after_toggle, if_neg h2, if_neg h1]
        cases hag : alGet acts d.id with
        | some a => cases a <;> simp [effVal, travFlag, hgd, hag]
        | none =>
          cases hpar : getParentId d with
          | none => simp [effVal, travFlag, hgd, hag, hpar]
          | some pid =>
            cases hfind : items.find? (fun q => q.id = pid) with
            | none => simp [effVal, travFlag, hgd, hag, hpar, hfind]
            | some p =>
              obtain ⟨hpm, hpid⟩ := find?_id_mem hfind
              have hlt : rank p.id < rank d.id :=
                hws.parent_lt d hd p hpm (hpid ▸ hpar)
              have hp1 : p.id ≠ X.id := by
                intro hc
                have hdc : d ∈ childrenOf items X.id :=
                  mem_childrenOf.mpr ⟨hd, by rw [hpar, ← hpid, hc]⟩
                exact h2 (child_id_mem_collectDescendants hdc)
              have hp2 : p.id ∉ collectDescendants items (f' + 1) X := by
                intro hc
                have hcl := collectDescendants_closed (f' + 1) X p.id d hc hd
                  (hpid ▸ hpar)
                rw [collectDescendants_stable hws (f' + 1 + 1) (f' + 1) X hX
                  (by omega) (by omega)] at hcl
                exact h2 hcl
              have hIH := ihk (rank p.id) (hrk ▸ hlt) p hpm rfl
              rw [if_neg (by
                intro hc
                rcases List.mem_cons.mp hc with hc1 | hc2
                · exact hp1 hc1
                · exact hp2 hc2)] at hIH
              have hstab1 : effVal items acts' R p = effVal items acts' (R + 1) p :=
                effVal_stable hws acts' R (R + 1) p hpm (by omega) (by omega)
              have hstab2 : effVal items acts R p = effVal items acts (R + 1) p :=
                effVal_stable hws acts R (R + 1) p hpm (by omega) (by omega)
              have hun1 : effVal items acts' (R + 1) d = effVal items acts' R p := by
                simp only [effVal, travFlag, hgd, hag, hpar, hfind]
              have hun2 : effVal items acts (R + 1) d = effVal items acts R p := by
                simp only [effVal, travFlag, hag, hpar, hfind]
              rw [hun1, hun2, hstab1, hstab2, hIH]

/-! ## The reconciliation invariant -/

theorem searchFlatAux_mem {items : List Item} {tid : String}
    {rec : List Item → Option (Option Item)}
    (hrec : ∀ l r, (∀ it ∈ l, it ∈ items) → rec l = some (some r) →
      r ∈ items ∧ r.id = tid) :
    ∀ l r, (∀ it ∈ l, it ∈ items) →
      searchFlatAux items tid rec l = some (some r) →
      r ∈ items ∧ r.id = tid := by
  intro l
  induction l with
  | nil =>
    intro r _ h
    simp [searchFlatAux] at h
  | cons it rest ih =>
    intro r hsub h
    simp only [searchFlatAux] at h
    by_cases hid : it.id = tid
    · rw [if_pos hid] at h
      cases h
      exact ⟨hsub it (List.mem_cons_self _ _), hid⟩
    · rw [if_neg hid] at h
      cases hrc : rec (childrenOf items it.id) with
      | none => rw [hrc] at h; cases h
      | some o =>
        cases o with
        | some r' =>
          rw [hrc] at h
          cases h
          exact hrec _ _ childrenOf_subset hrc
        | none =>
          rw [hrc] at h
          exact ih r (fun i hi => hsub i (List.mem_cons_of_mem _ hi)) h

theorem searchFlat_mem {items : List Item} {tid : String} :
    ∀ n l r, (∀ it ∈ l, it ∈ items) →
      searchFlat items tid n l = some (some r) → r ∈ items ∧ r.id = tid := by
  intro n
  induction n with
  | zero =>
    intro l r _ h
    cases l <;> simp [searchFlat] at h
  | succ n ih =>
    intro l r hsub h
    exact searchFlatAux_mem ih l r hsub h

theorem findItemInFlat_found {items : List Item} {tid : String} {fuel : Nat}
    {r : Item} (h : findItemInFlat items tid fuel = some (some r)) :
    r ∈ items ∧ r.id = tid := by
  unfold findItemInFlat at h
  cases hfind : items.find? (fun it => it.id = tid) with
  | some it =>
    rw [hfind] at h
    cases h
    exact find?_id_mem hfind
  | none =>
    rw [hfind] at h
    exact searchFlat_mem fuel items r (fun _ hi => hi) h

/-- Invariant preservation for the state written by `handleToggle` once the
toggled item has been located, for an arbitrary new value `b`. -/
theorem configSync_toggle_core {items : List Item} {rank : String → Nat}
    {R : Nat} (hws : RankedStore items rank R) {f : Nat} (hf : R + 1 < f)
    {st : TState} (hsync : ConfigSync items R st) {X : Item}
    (hXm : X ∈ items) (b : Bool) :
    ConfigSync items R
      { checkedItems := toggleItemsRecursively items f X b st.checkedItems
        explicitActions :=
          (collectDescendants items f X).foldl (fun m dd => alDelete m dd)
            (alSet st.explicitActions X.id
              (if b then Action.enabled else Action.disabled)) } := by
  obtain ⟨f', rfl⟩ : ∃ f', f = f' + 1 := ⟨f - 1, by omega⟩
  have hXR : rank X.id ≤ R := hws.rank_le X hXm
  have hcov : covIds items (f' + 1) X =
      X.id :: collectDescendants items (f' + 1) X := by
    rw [covIds_succ,
      collectDescendants_stable hws f' (f' + 1) X hXm (by omega) (by omega)]
  have htog := effVal_after_toggle hws st.explicitActions hXm
    (if b then Action.enabled else Action.disabled) (show R < f' + 1 by omega)
  have hdec :
      decide ((if b then Action.enabled else Action.disabled) = Action.enabled)
        = b := by
    cases b <;> simp
  constructor
  · intro x
    show x ∈ toggleItemsRecursively items (f' + 1) X b st.checkedItems ↔ _
    rw [mem_toggleItemsRecursively, hcov]
    by_cases hx : x ∈ X.id :: collectDescendants items (f' + 1) X
    · rw [if_pos hx]
      constructor
      · intro hb
        rcases List.mem_cons.mp hx with hx1 | hx2
        · refine ⟨X, hXm, hx1.symm, ?_⟩
          rw [htog X hXm, if_pos (List.mem_cons.mpr (Or.inl rfl)), hdec, hb]
        · obtain ⟨⟨dd, hdm, hdid⟩, _⟩ :=
            collectDescendants_rank hws (f' + 1) X hXm x hx2
          refine ⟨dd, hdm, hdid, ?_⟩
          rw [htog dd hdm, if_pos (by rw [hdid]; exact hx), hdec, hb]
      · rintro ⟨it, him, rfl, heff⟩
        rw [htog it him, if_pos hx, hdec] at heff
        exact heff
    · rw [if_neg hx]
      show x ∈ st.checkedItems ↔ _
      rw [hsync.1 x]
      constructor
      · rintro ⟨it, him, rfl, heff⟩
        refine ⟨it, him, rfl, ?_⟩
        rw [htog it him, if_neg hx]
        exact heff
      · rintro ⟨it, him, rfl, heff⟩
        rw [htog it him, if_neg hx] at heff
        exact ⟨it, him, rfl, heff⟩
  · exact foldl_alDelete_keys_nodup (alSet_keys_nodup hsync.2)

/-- A user toggle preserves the reconciliation invariant. -/
theorem configSync_toggle {items : List Item} {rank : String → Nat} {R : Nat}
    (hws : RankedStore items rank R) {f : Nat} (hf : R + 1 < f) {st : TState}
    (hsync : ConfigSync items R st) (tid : String) :
    ConfigSync items R (handleToggle items f st tid) := by
  cases hfind : findItemInFlat items tid f with
  | none => simpa [handleToggle, hfind] using hsync
  | some o =>
    cases o with
    | none => simpa [handleToggle, hfind] using hsync
    | some X =>
      obtain ⟨hXm, hXid⟩ := findItemInFlat_found hfind
      simp only [handleToggle, hfind]
      rw [← hXid]
      exact configSync_toggle_core hws hf hsync hXm _

/-- An external record application establishes the reconciliation
invariant. -/
theorem configSync_applyExternal {items : List Item} {rank : String → Nat}
    {R : Nat} (hws : RankedStore items rank R) {f : Nat} (hf : R < f)
    (cfg : TreeSyncConfig) :
    ConfigSync items R (applyExternal items cfg f) := by
  constructor
  · intro x
    exact applyConfig_checked_iff hws (buildActions cfg) hf x
  · exact buildActions_keys_nodup

/-- Every reachable component state satisfies the reconciliation
invariant. -/
theorem configSync_reachable {items : List Item} {rank : String → Nat}
    {R : Nat} (hws : RankedStore items rank R) {f : Nat} (hf : R + 1 < f)
    {st : TState} (h : Reachable items f st) : ConfigSync items R st := by
  induction h with
  | applyRecord cfg => exact configSync_applyExternal hws (by omega) cfg
  | toggle st tid _ ih => exact configSync_toggle hws hf ih tid

/-! ## Claim C3 -/

/-- C3: Round-trip law — for every loaded (ranked) forest and every
component state reached by an external record application followed by any
sequence of user toggles, synthesizing the Override Record from the Edit
Tracker (`generateMinimalConfig`) and applying it back through the
apply-external operation reproduces exactly the checked-id set the record
was synthesized from. -/
theorem c3_round_trip {items : List Item} {rank : String → Nat} {R f : Nat}
    {st : TState} (hws : RankedStore items rank R) (hf : R + 1 < f)
    (hst : Reachable items f st) (x : String) :
    x ∈ (applyExternal items (generateMinimalConfig st.explicitActions) f).checkedItems
      ↔ x ∈ st.checkedItems := by
  have hsync := configSync_reachable hws hf hst
  show x ∈ applyConfigList items
    (buildActions (generateMinimalConfig st.explicitActions)) f items false [] ↔ _
  rw [applyConfig_checked_iff hws _ (by omega) x, hsync.1 x]
  have hc := alGet_buildActions_generateMinimalConfig hsync.2
  constructor
  · rintro ⟨it, him, rfl, heff⟩
    refine ⟨it, him, rfl, ?_⟩
    rw [← effVal_congr hc (R + 1) it]
    exact heff
  · rintro ⟨it, him, rfl, heff⟩
    refine ⟨it, him, rfl, ?_⟩
    rw [effVal_congr hc (R + 1) it]
    exact heff

/-- Concrete instance of the round-trip law: store `r ← {a, b}`, apply
`{enabled:[r]}`, then toggle `a` off; the resynthesized record reproduces
the checked set, which still contains `b`. -/
theorem c3_round_trip_witness :
    ("b" ∈ (applyExternal [⟨"r", none⟩, ⟨"a", some "r"⟩, ⟨"b", some "r"⟩]
        (generateMinimalConfig
          (handleToggle [⟨"r", none⟩, ⟨"a", some "r"⟩, ⟨"b", some "r"⟩] 3
            (applyExternal [⟨"r", none⟩, ⟨"a", some "r"⟩, ⟨"b", some "r"⟩]
              ⟨["r"], []⟩ 3) "a").explicitActions) 3).checkedItems
      ↔ "b" ∈ (handleToggle [⟨"r", none⟩, ⟨"a", some "r"⟩, ⟨"b", some "r"⟩] 3
          (applyExternal [⟨"r", none⟩, ⟨"a", some "r"⟩, ⟨"b", some "r"⟩]
            ⟨["r"], []⟩ 3) "a").checkedItems)
      ∧ "b" ∈ (handleToggle [⟨"r", none⟩, ⟨"a", some "r"⟩, ⟨"b", some "r"⟩] 3
          (applyExternal [⟨"r", none⟩, ⟨"a", some "r"⟩, ⟨"b", some "r"⟩]
            ⟨["r"], []⟩ 3) "a").checkedItems :=
  ⟨@c3_round_trip [⟨"r", none⟩, ⟨"a", some "r"⟩, ⟨"b", some "r"⟩]
      (fun s => if s = "r" then 0 else 1) 1 3 _
      ⟨by decide, by decide, by decide⟩ (by omega)
      (Reachable.toggle _ "a" (Reachable.applyRecord ⟨["r"], []⟩)) "b",
    by decide⟩

/-! ## The nearest-override law (claim C1) -/

theorem lastOverride_nil {cfg : TreeSyncConfig} : lastOverride cfg [] = none :=
  rfl

theorem lastOverride_append_singleton {cfg : TreeSyncConfig}
    {ids : List String} {x : String} :
    lastOverride cfg (ids ++ [x]) =
      match overrideOf cfg x with
      | some b => some b
      | none => lastOverride cfg ids := by
  simp [lastOverride, List.foldl_append]

theorem lastOverride_eq_none {cfg : TreeSyncConfig} :
    ∀ {ids : List String}, (∀ id ∈ ids, overrideOf cfg id = none) →
      lastOverride cfg ids = none := by
  intro ids
  induction ids with
  | nil => intro _; rfl
  | cons id rest ih =>
    intro h
    have h0 := h id (List.mem_cons_self _ _)
    show List.foldl _ _ (id :: rest) = none
    simp only [List.foldl_cons, h0]
    exact ih (fun i hi => h i (List.mem_cons_of_mem _ hi))

theorem lastOverride_foldl_gen {cfg : TreeSyncConfig} :
    ∀ (l : List String) (a : Option Bool),
      l.foldl
        (fun acc i => match overrideOf cfg i with
          | some b => some b
          | none => acc) a =
      match lastOverride cfg l with
      | some b => some b
      | none => a := by
  intro l
  induction l with
  | nil => intro a; rfl
  | cons i li ih =>
    intro a
    show li.foldl _ (match overrideOf cfg i with
      | some b => some b
      | none => a) = _
    rw [ih]
    have hdef : lastOverride cfg (i :: li) = li.foldl
        (fun acc j => match overrideOf cfg j with
          | some b => some b
          | none => acc)
        (match overrideOf cfg i with
          | some b => some b
          | none => (none : Option Bool)) := rfl
    have hl := ih (match overrideOf cfg i with
      | some b => some b
      | none => (none : Option Bool))
    rw [hdef, hl]
    cases overrideOf cfg i <;> cases lastOverride cfg li <;> rfl

/-- The inheritance fold of `isItemEnabled` computes the value of the last
(nearest) overridden entry of the path, with the initial state as default. -/
theorem foldl_override_eq_lastOverride {cfg : TreeSyncConfig} :
    ∀ (ids : List String) (st : Bool),
      ids.foldl
        (fun s id =>
          if id ∈ cfg.enabled then true
          else if id ∈ cfg.disabled then false
          else s) st =
      (lastOverride cfg ids).getD st := by
  have hstep : ∀ (s : Bool) (id : String),
      (if id ∈ cfg.enabled then true
        else if id ∈ cfg.disabled then false else s) =
      (match overrideOf cfg id with | some b => b | none => s) := by
    intro s id
    unfold overrideOf
    by_cases h1 : id ∈ cfg.enabled
    · simp [h1]
    · by_cases h2 : id ∈ cfg.disabled <;> simp [h1, h2]
  intro ids
  induction ids with
  | nil => intro st; rfl
  | cons id rest ih =>
    intro st
    show rest.foldl _
      (if id ∈ cfg.enabled then true
        else if id ∈ cfg.disabled then false else st) = _
    rw [ih, hstep st id]
    have hdef : lastOverride cfg (id :: rest) = rest.foldl
        (fun acc j => match overrideOf cfg j with
          | some b => some b
          | none => acc)
        (match overrideOf cfg id with
          | some b => some b
          | none => (none : Option Bool)) := rfl
    have hl := @lastOverride_foldl_gen cfg rest (match overrideOf cfg id with
      | some b => some b
      | none => (none : Option Bool))
    rw [hdef, hl]
    cases overrideOf cfg id <;> cases lastOverride cfg rest <;> rfl

/-- The path `findItemPath` returns always ends at the target node. -/
theorem findItemPath_last {tid : String} :
    ∀ s (trees : List TreeN), sizeOf trees ≤ s → ∀ path,
      findItemPath tid trees = some path →
      ∃ q t, path = q ++ [t] ∧ TreeN.id t = tid := by
  intro s
  induction s using Nat.strong_induction_on with
  | _ s ihs =>
    intro trees hsize path hp
    cases trees with
    | nil => simp [findItemPath] at hp
    | cons t rest =>
      have hszc : sizeOf (TreeN.children t) < s := by
        have h1 := TreeN.sizeOf_children_lt t
        have h2 : sizeOf (t :: rest) = 1 + sizeOf t + sizeOf rest := by
          simp
        omega
      have hszr : sizeOf rest < s := by
        have h2 : sizeOf (t :: rest) = 1 + sizeOf t + sizeOf rest := by
          simp
        have : 0 ≤ sizeOf t := Nat.zero_le _
        omega
      simp only [findItemPath] at hp
      by_cases hid : TreeN.id t = tid
      · rw [if_pos hid] at hp
        cases hp
        exact ⟨[], t, rfl, hid⟩
      · rw [if_neg hid] at hp
        cases hchild : findItemPath tid (TreeN.children t) with
        | some p =>
          rw [hchild] at hp
          cases hp
          obtain ⟨q, t', hpq, ht'⟩ :=
            ihs (sizeOf (TreeN.children t)) hszc (TreeN.children t) le_rfl p hchild
          exact ⟨t :: q, t', by rw [hpq]; rfl, ht'⟩
        | none =>
          rw [hchild] at hp
          exact ihs (sizeOf rest) hszr rest le_rfl path hp

/-- With a disjoint record, `buildActions` lookups mirror `overrideOf`. -/
theorem buildActions_overrideOf {cfg : TreeSyncConfig}
    (hdisj : ∀ id, ¬(id ∈ cfg.enabled ∧ id ∈ cfg.disabled)) (k : String) :
    (match alGet (buildActions cfg) k with
      | some Action.enabled => some true
      | some Action.disabled => some false
      | none => (none : Option Bool)) = overrideOf cfg k := by
  rw [alGet_buildActions]
  unfold overrideOf
  by_cases hd : k ∈ cfg.disabled
  · have he : k ∉ cfg.enabled := fun he => hdisj k ⟨he, hd⟩
    simp [hd, he]
  · by_cases he : k ∈ cfg.enabled <;> simp [hd, he]

/-- On ranked stores the recursive effective value is exactly the
nearest-override law along the loaded root-to-node id path. -/
theorem effVal_eq_lastOverride {items : List Item} {rank : String → Nat}
    {R : Nat} (hws : RankedStore items rank R) {cfg : TreeSyncConfig}
    (hdisj : ∀ id, ¬(id ∈ cfg.enabled ∧ id ∈ cfg.disabled)) :
    ∀ n it, it ∈ items → rank it.id < n →
      effVal items (buildActions cfg) n it =
        (lastOverride cfg (rootPathIds items n it)).getD false := by
  intro n
  induction n with
  | zero => intro it _ h; omega
  | succ n ih =>
    intro it hit hn
    have hov := buildActions_overrideOf hdisj it.id
    cases hpar : getParentId it with
    | none =>
      have hpath : rootPathIds items (n + 1) it = [it.id] := by
        simp [rootPathIds, hpar]
      rw [hpath]
      have hlast : lastOverride cfg [it.id] = overrideOf cfg it.id := by
        show List.foldl _ _ [it.id] = _
        simp only [List.foldl_cons, List.foldl_nil]
        cases overrideOf cfg it.id <;> rfl
      rw [hlast, ← hov]
      cases hag : alGet (buildActions cfg) it.id with
      | some a => cases a <;> simp [effVal, travFlag, hag]
      | none => simp [effVal, travFlag, hag, hpar]
    | some pid =>
      cases hfind : items.find? (fun p => p.id = pid) with
      | none =>
        have hpath : rootPathIds items (n + 1) it = [it.id] := by
          simp [rootPathIds, hpar, hfind]
        rw [hpath]
        have hlast : lastOverride cfg [it.id] = overrideOf cfg it.id := by
          show List.foldl _ _ [it.id] = _
          simp only [List.foldl_cons, List.foldl_nil]
          cases overrideOf cfg it.id <;> rfl
        rw [hlast, ← hov]
        cases hag : alGet (buildActions cfg) it.id with
        | some a => cases a <;> simp [effVal, travFlag, hag]
        | none => simp [effVal, travFlag, hag, hpar, hfind]
      | some p =>
        obtain ⟨hpm, hpid⟩ := find?_id_mem hfind
        have hlt : rank p.id < rank it.id :=
          hws.parent_lt it hit p hpm (hpid ▸ hpar)
        have hpath : rootPathIds items (n + 1) it =
            rootPathIds items n p ++ [it.id] := by
          simp [rootPathIds, hpar, hfind]
        rw [hpath, lastOverride_append_singleton, ← hov]
        have hih := ih p hpm (by omega)
        cases hag : alGet (buildActions cfg) it.id with
        | some a =>
          cases a <;> simp [effVal, travFlag, hag]
        | none =>
          simp only [effVal, travFlag, hag, hpar, hfind]
          rw [hih]

/-- C1: Inheritance resolution — the effective checked value of a node is
the nearest override on its root-to-node path: (1) the path resolver
`isItemEnabled` computes exactly the last-override law; (2) a node with no
override of its own and no overridden ancestor resolves to `false`; (3) a
node listed in `enabled` resolves to `true`, (4) one listed in `disabled`
(the sets being disjoint) to `false`; (5) a node with no own override but
an overridden ancestor takes the value of the nearest such ancestor, not
the topmost; and (6) the flat apply-config traversal checks exactly the
loaded ids whose root-to-node path resolves to `true` under the same law. -/
theorem c1_nearest_override {trees : List TreeN} {cfg : TreeSyncConfig}
    {tid : String} {path : List TreeN}
    (hpath : findItemPath tid trees = some path)
    (hdisj : ∀ id, ¬(id ∈ cfg.enabled ∧ id ∈ cfg.disabled))
    {items : List Item} {rank : String → Nat} {R f : Nat}
    (hws : RankedStore items rank R) (hf : R < f) :
    isItemEnabled tid cfg trees =
      (lastOverride cfg (path.map TreeN.id)).getD false
    ∧ ((∀ t ∈ path, overrideOf cfg (TreeN.id t) = none) →
        isItemEnabled tid cfg trees = false)
    ∧ (tid ∈ cfg.enabled → isItemEnabled tid cfg trees = true)
    ∧ (tid ∈ cfg.disabled → isItemEnabled tid cfg trees = false)
    ∧ (∀ q t b, path = q ++ [t] → overrideOf cfg (TreeN.id t) = none →
        lastOverride cfg (q.map TreeN.id) = some b →
        isItemEnabled tid cfg trees = b)
    ∧ (∀ x, x ∈ (applyExternal items cfg f).checkedItems ↔
        ∃ it ∈ items, it.id = x ∧
          (lastOverride cfg (rootPathIds items (R + 1) it)).getD false = true) := by
  have h1 : isItemEnabled tid cfg trees =
      (lastOverride cfg (path.map TreeN.id)).getD false := by
    unfold isItemEnabled
    rw [hpath]
    rw [← foldl_override_eq_lastOverride (path.map TreeN.id) false,
      List.foldl_map]
  obtain ⟨q0, t0, hq0, ht0⟩ := findItemPath_last (sizeOf trees) trees le_rfl path hpath
  refine ⟨h1, ?_, ?_, ?_, ?_, ?_⟩
  · intro hall
    rw [h1, lastOverride_eq_none]
    · rfl
    · intro id hid
      rcases List.mem_map.mp hid with ⟨t, ht, rfl⟩
      exact hall t ht
  · intro hen
    rw [h1, hq0, List.map_append, List.map_singleton, ht0,
      lastOverride_append_singleton]
    have : overrideOf cfg tid = some true := by
      unfold overrideOf
      rw [if_pos hen]
    rw [this]
    rfl
  · intro hdis
    have hnen : tid ∉ cfg.enabled := fun h => hdisj tid ⟨h, hdis⟩
    rw [h1, hq0, List.map_append, List.map_singleton, ht0,
      lastOverride_append_singleton]
    have : overrideOf cfg tid = some false := by
      unfold overrideOf
      rw [if_neg hnen, if_pos hdis]
    rw [this]
    rfl
  · intro q t b hq ht hlast
    rw [h1, hq, List.map_append, List.map_singleton,
      lastOverride_append_singleton, ht, hlast]
    rfl
  · intro x
    show x ∈ applyConfigList items (buildActions cfg) f items false [] ↔ _
    rw [applyConfig_checked_iff hws (buildActions cfg) hf x]
    constructor
    · rintro ⟨it, him, rfl, heff⟩
      refine ⟨it, him, rfl, ?_⟩
      rw [← effVal_eq_lastOverride hws hdisj (R + 1) it him
        (by have := hws.rank_le it him; omega)]
      exact heff
    · rintro ⟨it, him, rfl, heff⟩
      refine ⟨it, him, rfl, ?_⟩
      rw [effVal_eq_lastOverride hws hdisj (R + 1) it him
        (by have := hws.rank_le it him; omega)]
      exact heff

/-- Concrete instance of the nearest-override law: with record
`{enabled:[r], disabled:[a]}` over the tree `r ← {a, b}`, node `r` resolves
to `true`, and in the flat store `b` is checked exactly when its root path
resolves to `true`. -/
theorem c1_nearest_override_witness :
    isItemEnabled "r" ⟨["r"], ["a"]⟩
      [TreeN.node "r" [TreeN.node "a" [], TreeN.node "b" []]] = true
    ∧ ("b" ∈ (applyExternal [⟨"r", none⟩, ⟨"a", some "r"⟩, ⟨"b", some "r"⟩]
        ⟨["r"], ["a"]⟩ 3).checkedItems ↔
      ∃ it ∈ [Item.mk "r" none, Item.mk "a" (some "r"), Item.mk "b" (some "r")],
        it.id = "b" ∧
        (lastOverride ⟨["r"], ["a"]⟩
          (rootPathIds [⟨"r", none⟩, ⟨"a", some "r"⟩, ⟨"b", some "r"⟩]
            2 it)).getD false = true) :=
  ⟨(@c1_nearest_override
      [TreeN.node "r" [TreeN.node "a" [], TreeN.node "b" []]]
      ⟨["r"], ["a"]⟩ "r" [TreeN.node "r" [TreeN.node "a" [], TreeN.node "b" []]]
      (by simp [findItemPath, TreeN.id, TreeN.children])
      (by
        intro id h
        rcases h with ⟨h1, h2⟩
        simp at h1 h2
        rw [h1] at h2
        exact absurd h2 (by decide))
      [⟨"r", none⟩, ⟨"a", some "r"⟩, ⟨"b", some "r"⟩]
      (fun s => if s = "r" then 0 else 1) 1 3
      ⟨by decide, by decide, by decide⟩ (by omega)).2.2.1 (by decide),
    (@c1_nearest_override
      [TreeN.node "r" [TreeN.node "a" [], TreeN.node "b" []]]
      ⟨["r"], ["a"]⟩ "r" [TreeN.node "r" [TreeN.node "a" [], TreeN.node "b" []]]
      (by simp [findItemPath, TreeN.id, TreeN.children])
      (by
        intro id h
        rcases h with ⟨h1, h2⟩
        simp at h1 h2
        rw [h1] at h2
        exact absurd h2 (by decide))
      [⟨"r", none⟩, ⟨"a", some "r"⟩, ⟨"b", some "r"⟩]
      (fun s => if s = "r" then 0 else 1) 1 3
      ⟨by decide, by decide, by decide⟩ (by omega)).2.2.2.2.2 "b"⟩

/-! ## Claim C2: a single toggle from the empty state -/

/-- With an empty actions map the traversal adds nothing. -/
theorem applyConfigList_empty_acts {items : List Item} :
    ∀ n l chk, applyConfigList items [] n l false chk = chk := by
  intro n
  induction n with
  | zero => intro l chk; rfl
  | succ n ih =>
    intro l
    induction l with
    | nil => intro chk; rfl
    | cons it rest ihl =>
      intro chk
      rw [applyConfigList_cons]
      have hflag : travFlag [] false it = false := rfl
      rw [hflag, if_neg (by simp), ih, ihl]

/-- With an empty checked set every aggregated state is unchecked. -/
theorem calcState_checked_false {items : List Item} :
    ∀ n it, (calcState items [] n it).checked = false := by
  intro n
  induction n with
  | zero => intro it; rfl
  | succ n ih =>
    intro it
    by_cases hc : (childrenOf items it.id).isEmpty
    · simp [calcState, hc]
    · obtain ⟨c, hcm⟩ : ∃ c, c ∈ childrenOf items it.id := by
        cases hl : childrenOf items it.id with
        | nil => rw [hl] at hc; simp at hc
        | cons c cl => exact ⟨c, List.mem_cons_self _ _⟩
      have : ((childrenOf items it.id).map (calcState items [] n)).all
          (fun s => s.checked && !s.indeterminate) = false := by
        rw [List.all_eq_false]
        exact ⟨calcState items [] n c, List.mem_map_of_mem _ hcm, by
          simp [ih c]⟩
      simp [calcState, hc, this]

/-- With an empty checked set every entry written into the state map is
unchecked. -/
theorem calcStateMapFrom_checked_false {items : List Item} :
    ∀ n it m, (∀ e ∈ m, (e.2 : NodeState).checked = false) →
      ∀ e ∈ calcStateMapFrom items [] n it m, (e.2 : NodeState).checked = false := by
  intro n
  induction n with
  | zero => intro it m hm e he; exact hm e he
  | succ n ih =>
    intro it m hm e he
    by_cases hc : (childrenOf items it.id).isEmpty
    · simp only [calcStateMapFrom, hc, if_pos] at he
      rcases List.mem_append.mp he with h | h
      · exact hm e h
      · rcases List.mem_singleton.mp h with rfl
        simp
    · simp only [calcStateMapFrom, hc] at he
      rw [if_neg (by simp [hc])] at he
      have hfold : ∀ (l : List Item) m, (∀ e ∈ m, (e.2 : NodeState).checked = false) →
          ∀ e ∈ l.foldl (fun acc c => calcStateMapFrom items [] n c acc) m,
            (e.2 : NodeState).checked = false := by
        intro l
        induction l with
        | nil => intro m hm e he; exact hm e he
        | cons c cl ihl =>
          intro m hm e he
          exact ihl _ (fun e' he' => ih c m hm e' he') e he
      rcases List.mem_append.mp he with h | h
      · exact hfold _ m hm e h
      · rcases List.mem_singleton.mp h with rfl
        simp [calcState_checked_false]

theorem checkedStateMap_checked_false {items : List Item} {fuel : Nat} :
    ∀ e ∈ checkedStateMap items [] fuel, (e.2 : NodeState).checked = false := by
  unfold checkedStateMap
  have hfold : ∀ (l : List Item) m, (∀ e ∈ m, (e.2 : NodeState).checked = false) →
      ∀ e ∈ l.foldl (fun m r => calcStateMapFrom items [] fuel r m) m,
        (e.2 : NodeState).checked = false := by
    intro l
    induction l with
    | nil => intro m hm e he; exact hm e he
    | cons c cl ihl =>
      intro m hm e he
      exact ihl _ (fun e' he' => calcStateMapFrom_checked_false fuel c m hm e' he') e he
  exact hfold _ [] (by intro e he; cases he)

/-- C2: With an empty Override Record and an empty Edit Tracker (which is
exactly the state the apply-external operation builds from the empty
record), a single toggle on a loaded parent records the single entry
`edits[parent] = 'on'`, the synthesized record is exactly
`{forceOn:[parentId], forceOff:[]}`, and no loaded descendant of the
parent appears in either array. -/
theorem c2_single_parent_toggle {items : List Item} {rank : String → Nat}
    {R f : Nat} (hws : RankedStore items rank R)
    {pid : String} {X : Item}
    (hX : items.find? (fun it => it.id = pid) = some X) :
    applyExternal items ⟨[], []⟩ f = ⟨[], []⟩
    ∧ (handleToggle items f ⟨[], []⟩ pid).explicitActions =
        [(pid, Action.enabled)]
    ∧ generateMinimalConfig
        (handleToggle items f ⟨[], []⟩ pid).explicitActions = ⟨[pid], []⟩
    ∧ ∀ d ∈ collectDescendants items f X,
        d ∉ (generateMinimalConfig
              (handleToggle items f ⟨[], []⟩ pid).explicitActions).enabled
        ∧ d ∉ (generateMinimalConfig
              (handleToggle items f ⟨[], []⟩ pid).explicitActions).disabled := by
  obtain ⟨hXm, hXid⟩ := find?_id_mem hX
  have hne : ∀ d ∈ collectDescendants items f X, d ≠ pid := by
    intro d hd hdp
    have := (collectDescendants_rank hws f X hXm d hd).2
    rw [hdp, ← hXid] at this
    omega
  have hacts : (handleToggle items f ⟨[], []⟩ pid).explicitActions =
      [(pid, Action.enabled)] := by
    have hfound : findItemInFlat items pid f = some (some X) := by
      unfold findItemInFlat
      rw [hX]
    simp only [handleToggle, hfound]
    have hb : (match nsGet (checkedStateMap items
        (⟨[], []⟩ : TState).checkedItems f) pid with
        | none => true
        | some s => !s.checked) = true := by
      cases hns : nsGet (checkedStateMap items [] f) pid with
      | none => rfl
      | some s =>
        have hsf : s.checked = false := by
          unfold nsGet at hns
          cases hfind : (checkedStateMap items [] f).reverse.find?
              (fun e => e.1 = pid) with
          | none => rw [hfind] at hns; cases hns
          | some e =>
            rw [hfind] at hns
            cases hns
            exact checkedStateMap_checked_false e
              (List.mem_reverse.mp (List.mem_of_find?_eq_some hfind))
        simp [hsf]
    rw [hb]
    show (collectDescendants items f X).foldl (fun m d => alDelete m d)
      (alSet [] pid (if true then Action.enabled else Action.disabled)) = _
    rw [if_pos rfl]
    show (collectDescendants items f X).foldl (fun m d => alDelete m d)
      [(pid, Action.enabled)] = _
    have hkeep : ∀ (l : List String), (∀ y ∈ l, y ≠ pid) →
        l.foldl (fun m d => alDelete m d) [(pid, Action.enabled)] =
          [(pid, Action.enabled)] := by
      intro l
      induction l with
      | nil => intro _; rfl
      | cons y yl ihl =>
        intro hl
        have hy : alDelete [(pid, Action.enabled)] y = [(pid, Action.enabled)] := by
          unfold alDelete
          rw [List.filter_cons]
          rw [if_pos (by
            simp only [decide_eq_true_eq]
            exact fun hc => hl y (List.mem_cons_self _ _) hc.symm)]
          rfl
        show yl.foldl _ (alDelete [(pid, Action.enabled)] y) = _
        rw [hy]
        exact ihl (fun y' hy' => hl y' (List.mem_cons_of_mem _ hy'))
    exact hkeep _ hne
  refine ⟨?_, hacts, ?_, ?_⟩
  · show TState.mk (applyConfigList items (buildActions ⟨[], []⟩) f items false [])
      (buildActions ⟨[], []⟩) = _
    have hba : buildActions ⟨[], []⟩ = [] := rfl
    rw [hba, applyConfigList_empty_acts]
  · rw [hacts]
    rfl
  · intro d hd
    rw [hacts]
    constructor
    · intro hmem
      have : d = pid := by
        simpa [generateMinimalConfig] using hmem
      exact hne d hd this
    · intro hmem
      simp [generateMinimalConfig] at hmem

/-- Concrete instance of the single-toggle law: toggling `r` (parent of
the unchecked `a` and `b`) from the empty state yields the tracker
`[(r, 'enabled')]` and the record `{enabled:[r], disabled:[]}`, and the
checked set contains all three nodes. -/
theorem c2_single_parent_toggle_witness :
    (handleToggle [⟨"r", none⟩, ⟨"a", some "r"⟩, ⟨"b", some "r"⟩] 3
        ⟨[], []⟩ "r").explicitActions = [("r", Action.enabled)]
    ∧ generateMinimalConfig
        (handleToggle [⟨"r", none⟩, ⟨"a", some "r"⟩, ⟨"b", some "r"⟩] 3
          ⟨[], []⟩ "r").explicitActions = ⟨["r"], []⟩
    ∧ (handleToggle [⟨"r", none⟩, ⟨"a", some "r"⟩, ⟨"b", some "r"⟩] 3
        ⟨[], []⟩ "r").checkedItems = ["r", "a", "b"] :=
  ⟨(@c2_single_parent_toggle [⟨"r", none⟩, ⟨"a", some "r"⟩, ⟨"b", some "r"⟩]
      (fun s => if s = "r" then 0 else 1) 1 3
      ⟨by decide, by decide, by decide⟩ "r" ⟨"r", none⟩ (by decide)).2.1,
    (@c2_single_parent_toggle [⟨"r", none⟩, ⟨"a", some "r"⟩, ⟨"b", some "r"⟩]
      (fun s => if s = "r" then 0 else 1) 1 3
      ⟨by decide, by decide, by decide⟩ "r" ⟨"r", none⟩ (by decide)).2.2.1,
    by decide⟩

/-! ## Claim C4: aggregation rules -/

/-- C4: The displayed `{checked, indeterminate}` state is aggregated
bottom-up over the currently loaded children only: a node with no loaded
children reads its own effective boolean with `indeterminate = false`;
all-checked children make it `{true, false}`; all-unchecked,
non-indeterminate children make it `{false, false}`; any other combination
(some but not all checked, or any indeterminate child) makes it
`{false, true}`. -/
theorem c4_aggregation {items : List Item} {chk : List String} {it : Item}
    {n : Nat} :
    (childrenOf items it.id = [] →
      calcState items chk (n + 1) it =
        { checked := it.id ∈ chk, indeterminate := false })
    ∧ (childrenOf items it.id ≠ [] →
        (∀ c ∈ childrenOf items it.id,
          calcState items chk n c = { checked := true, indeterminate := false }) →
        calcState items chk (n + 1) it =
          { checked := true, indeterminate := false })
    ∧ (childrenOf items it.id ≠ [] →
        (∀ c ∈ childrenOf items it.id,
          calcState items chk n c = { checked := false, indeterminate := false }) →
        calcState items chk (n + 1) it =
          { checked := false, indeterminate := false })
    ∧ (childrenOf items it.id ≠ [] →
        ¬(∀ c ∈ childrenOf items it.id,
          calcState items chk n c = { checked := true, indeterminate := false }) →
        ¬(∀ c ∈ childrenOf items it.id,
          calcState items chk n c = { checked := false, indeterminate := false }) →
        calcState items chk (n + 1) it =
          { checked := false, indeterminate := true }) := by
  refine ⟨?_, ?_, ?_, ?_⟩
  · intro hc
    simp [calcState, hc]
  · intro hc hall
    have hne : (childrenOf items it.id).isEmpty = false := by
      cases hl : childrenOf items it.id with
      | nil => exact absurd hl hc
      | cons c cl => rfl
    have h1 : ((childrenOf items it.id).map (calcState items chk n)).all
        (fun s => s.checked && !s.indeterminate) = true := by
      rw [List.all_eq_true]
      intro s hs
      rcases List.mem_map.mp hs with ⟨c, hcm, rfl⟩
      rw [hall c hcm]
      rfl
    simp [calcState, hne, h1]
  · intro hc hall
    have hne : (childrenOf items it.id).isEmpty = false := by
      cases hl : childrenOf items it.id with
      | nil => exact absurd hl hc
      | cons c cl => rfl
    obtain ⟨c0, hc0⟩ : ∃ c, c ∈ childrenOf items it.id := by
      cases hl : childrenOf items it.id with
      | nil => exact absurd hl hc
      | cons c cl => exact ⟨c, List.mem_cons_self _ _⟩
    have h1 : ((childrenOf items it.id).map (calcState items chk n)).all
        (fun s => s.checked && !s.indeterminate) = false := by
      rw [List.all_eq_false]
      exact ⟨calcState items chk n c0, List.mem_map_of_mem _ hc0, by
        rw [hall c0 hc0]; simp⟩
    have h2 : ((childrenOf items it.id).map (calcState items chk n)).any
        (fun s => s.checked || s.indeterminate) = false := by
      rw [List.any_eq_false]
      intro s hs
      rcases List.mem_map.mp hs with ⟨c, hcm, rfl⟩
      rw [hall c hcm]
      simp
    simp [calcState, hne, h1, h2]
  · intro hc hnall hnnone
    have hne : (childrenOf items it.id).isEmpty = false := by
      cases hl : childrenOf items it.id with
      | nil => exact absurd hl hc
      | cons c cl => rfl
    obtain ⟨c1, hc1, hs1⟩ : ∃ c ∈ childrenOf items it.id,
        calcState items chk n c ≠ { checked := true, indeterminate := false } := by
      by_contra hcon
      push_neg at hcon
      exact hnall hcon
    obtain ⟨c2, hc2, hs2⟩ : ∃ c ∈ childrenOf items it.id,
        calcState items chk n c ≠ { checked := false, indeterminate := false } := by
      by_contra hcon
      push_neg at hcon
      exact hnnone hcon
    have h1 : ((childrenOf items it.id).map (calcState items chk n)).all
        (fun s => s.checked && !s.indeterminate) = false := by
      rw [List.all_eq_false]
      refine ⟨calcState items chk n c1, List.mem_map_of_mem _ hc1, ?_⟩
      rcases hst : calcState items chk n c1 with ⟨sc, si⟩
      rw [hst] at hs1
      cases sc <;> cases si <;> simp_all
    have h2 : ((childrenOf items it.id).map (calcState items chk n)).any
        (fun s => s.checked || s.indeterminate) = true := by
      rw [List.any_eq_true]
      refine ⟨calcState items chk n c2, List.mem_map_of_mem _ hc2, ?_⟩
      rcases hst : calcState items chk n c2 with ⟨sc, si⟩
      rw [hst] at hs2
      cases sc <;> cases si <;> simp_all
    simp [calcState, hne, h1, h2]

/-- Concrete instance of the aggregation rules: parent `r` with loaded
children `a` (checked) and `b` (unchecked) aggregates to
`{checked:false, indeterminate:true}`. -/
theorem c4_aggregation_witness :
    calcState [⟨"r", none⟩, ⟨"a", some "r"⟩, ⟨"b", some "r"⟩] ["a"] 2
        ⟨"r", none⟩ = { checked := false, indeterminate := true }
    ∧ childrenOf [⟨"r", none⟩, ⟨"a", some "r"⟩, ⟨"b", some "r"⟩] "r" ≠ [] :=
  ⟨(@c4_aggregation [⟨"r", none⟩, ⟨"a", some "r"⟩, ⟨"b", some "r"⟩] ["a"]
      ⟨"r", none⟩ 1).2.2.2 (by decide) (by decide) (by decide),
    by decide⟩

/-! ## Claim C5: lazy-load non-pollution -/

theorem find?_append_of_some {l1 l2 : List Item} {p : Item → Bool} {a : Item}
    (h : l1.find? p = some a) : (l1 ++ l2).find? p = some a := by
  induction l1 with
  | nil => cases h
  | cons it rest ih =>
    cases hp : p it with
    | true =>
      rw [List.find?_cons_of_pos _ hp] at h
      rw [List.cons_append, List.find?_cons_of_pos _ hp]
      exact h
    | false =>
      rw [List.find?_cons_of_neg _ (by simp [hp])] at h
      rw [List.cons_append, List.find?_cons_of_neg _ (by simp [hp])]
      exact ih h

/-- A `true` effective value survives the merge of newly loaded nodes (the
old parent chains are untouched by an append). -/
theorem effVal_append_mono {items newItems : List Item}
    {acts : List (String × Action)} :
    ∀ n it, effVal items acts n it = true →
      effVal (items ++ newItems) acts n it = true := by
  intro n
  induction n with
  | zero => intro it h; exact h
  | succ n ih =>
    intro it h
    cases hag : alGet acts it.id with
    | some a =>
      cases a
      · simp [effVal, travFlag, hag]
      · simp [effVal, travFlag, hag] at h
    | none =>
      cases hpar : getParentId it with
      | none => simp [effVal, travFlag, hag, hpar] at h
      | some pid =>
        cases hfind : items.find? (fun p => p.id = pid) with
        | none => simp [effVal, travFlag, hag, hpar, hfind] at h
        | some p =>
          simp only [effVal, travFlag, hag, hpar, hfind] at h
          simp only [effVal, travFlag, hag, hpar, find?_append_of_some hfind]
          exact ih p h

theorem effVal_of_enabled {items : List Item} {acts : List (String × Action)}
    {q : Item} (h : alGet acts q.id = some Action.enabled) :
    ∀ n, effVal items acts n q = true := by
  intro n
  cases n <;> simp [effVal, travFlag, h]

/-- C5: Lazy-load non-pollution — merging newly loaded nodes re-runs the
apply-config effect with the unchanged record, so (a) the Edit Tracker
after the merge is identical to the tracker before it, (b) the
synthesized record is identical, (c) the tracker holds entries only for
ids of the record (never for newly arrived nodes), (d) the checked-id set
only grows, and (e) a newly loaded child of a `forceOn` parent becomes
checked with no tracker entry of its own. -/
theorem c5_lazy_load_non_pollution {items newItems : List Item}
    {cfg : TreeSyncConfig} {rank rank' : String → Nat} {R R' f f' : Nat}
    (hws : RankedStore items rank R)
    (hws' : RankedStore (items ++ newItems) rank' R')
    (hf : R < f) (hf' : R' < f') :
    (applyExternal (items ++ newItems) cfg f').explicitActions =
      (applyExternal items cfg f).explicitActions
    ∧ generateMinimalConfig
        (applyExternal (items ++ newItems) cfg f').explicitActions =
      generateMinimalConfig (applyExternal items cfg f).explicitActions
    ∧ (∀ id, alGet (applyExternal (items ++ newItems) cfg f').explicitActions id
          ≠ none → id ∈ cfg.enabled ∨ id ∈ cfg.disabled)
    ∧ (∀ x ∈ (applyExternal items cfg f).checkedItems,
        x ∈ (applyExternal (items ++ newItems) cfg f').checkedItems)
    ∧ (∀ c ∈ newItems, ∀ p, p ∈ items ++ newItems →
        getParentId c = some p.id → p.id ∈ cfg.enabled →
        p.id ∉ cfg.disabled → c.id ∉ cfg.enabled → c.id ∉ cfg.disabled →
        c.id ∈ (applyExternal (items ++ newItems) cfg f').checkedItems) := by
  refine ⟨rfl, rfl, ?_, ?_, ?_⟩
  · intro id h
    have h2 : alGet (buildActions cfg) id ≠ none := h
    rw [alGet_buildActions] at h2
    by_cases hd : id ∈ cfg.disabled
    · exact Or.inr hd
    · by_cases he : id ∈ cfg.enabled
      · exact Or.inl he
      · simp [hd, he] at h2
  · intro x hx
    have hx1 := (applyConfig_checked_iff hws (buildActions cfg) hf x).mp hx
    obtain ⟨it, him, rfl, heff⟩ := hx1
    show it.id ∈ applyConfigList (items ++ newItems) (buildActions cfg) f'
      (items ++ newItems) false []
    rw [applyConfig_checked_iff hws' (buildActions cfg) hf' it.id]
    refine ⟨it, List.mem_append_left _ him, rfl, ?_⟩
    have hrk : rank it.id ≤ R := hws.rank_le it him
    have hrk' : rank' it.id ≤ R' := hws'.rank_le it (List.mem_append_left _ him)
    have h1 : effVal items (buildActions cfg) (R + R' + 1) it = true := by
      rw [← effVal_stable hws (buildActions cfg) (R + 1) (R + R' + 1) it him
        (by omega) (by omega)]
      exact heff
    have h2 := @effVal_append_mono items newItems (buildActions cfg)
      (R + R' + 1) it h1
    rw [effVal_stable hws' (buildActions cfg) (R' + 1) (R + R' + 1) it
      (List.mem_append_left _ him) (by omega) (by omega)]
    exact h2
  · intro c hc p hp hcp hpe hpd hce hcd
    show c.id ∈ applyConfigList (items ++ newItems) (buildActions cfg) f'
      (items ++ newItems) false []
    rw [applyConfig_checked_iff hws' (buildActions cfg) hf' c.id]
    refine ⟨c, List.mem_append_right _ hc, rfl, ?_⟩
    have hagc : alGet (buildActions cfg) c.id = none := by
      rw [alGet_buildActions]
      simp [hce, hcd]
    have hagp : alGet (buildActions cfg) p.id = some Action.enabled := by
      rw [alGet_buildActions]
      simp [hpe, hpd]
    have hfind : (items ++ newItems).find? (fun q => q.id = p.id) = some p :=
      find?_of_mem_nodup hp hws'.nodupIds
    simp only [effVal, travFlag, hagc, hcp, hfind]
    exact effVal_of_enabled hagp R'

/-- Concrete instance of lazy-load non-pollution: loading children `a`,`b`
under the forceOn root `r` leaves the tracker and the synthesized record
unchanged while `a` becomes checked. -/
theorem c5_lazy_load_non_pollution_witness :
    (applyExternal ([⟨"r", none⟩] ++ [⟨"a", some "r"⟩, ⟨"b", some "r"⟩])
        ⟨["r"], []⟩ 2).explicitActions =
      (applyExternal [⟨"r", none⟩] ⟨["r"], []⟩ 1).explicitActions
    ∧ "a" ∈ (applyExternal ([⟨"r", none⟩] ++ [⟨"a", some "r"⟩, ⟨"b", some "r"⟩])
        ⟨["r"], []⟩ 2).checkedItems :=
  ⟨(@c5_lazy_load_non_pollution [⟨"r", none⟩] [⟨"a", some "r"⟩, ⟨"b", some "r"⟩]
      ⟨["r"], []⟩ (fun _ => 0) (fun s => if s = "r" then 0 else 1) 0 1 1 2
      ⟨by decide, by decide, by decide⟩ ⟨by decide, by decide, by decide⟩
      (by omega) (by omega)).1,
    (@c5_lazy_load_non_pollution [⟨"r", none⟩] [⟨"a", some "r"⟩, ⟨"b", some "r"⟩]
      ⟨["r"], []⟩ (fun _ => 0) (fun s => if s = "r" then 0 else 1) 0 1 1 2
      ⟨by decide, by decide, by decide⟩ ⟨by decide, by decide, by decide⟩
      (by omega) (by omega)).2.2.2.2 ⟨"a", some "r"⟩ (by decide) ⟨"r", none⟩
      (by decide) (by decide) (by decide) (by decide) (by decide) (by decide)⟩

/-! ## Claim C6: mutual exclusion of the synthesized record -/

theorem reachable_keys_nodup {items : List Item} {f : Nat} {st : TState}
    (h : Reachable items f st) :
    (st.explicitActions.map Prod.fst).Nodup := by
  induction h with
  | applyRecord cfg => exact buildActions_keys_nodup
  | toggle st tid _ ih =>
    cases hfind : findItemInFlat items tid f with
    | none => simpa [handleToggle, hfind] using ih
    | some o =>
      cases o with
      | none => simpa [handleToggle, hfind] using ih
      | some X =>
        simp only [handleToggle, hfind]
        exact foldl_alDelete_keys_nodup (alSet_keys_nodup ih)

theorem generateMinimalConfig_disjoint {acts : List (String × Action)}
    (hn : (acts.map Prod.fst).Nodup) (id : String) :
    ¬(id ∈ (generateMinimalConfig acts).enabled ∧
      id ∈ (generateMinimalConfig acts).disabled) := by
  rintro ⟨he, hd⟩
  have h1 := (alGet_eq_some_iff_mem hn).mpr
    (mem_generateMinimalConfig_enabled.mp he)
  have h2 := (alGet_eq_some_iff_mem hn).mpr
    (mem_generateMinimalConfig_disabled.mp hd)
  rw [h1] at h2
  cases h2

/-- The legacy `processItem` never pushes into `disabled` unless called
with parent state `'enabled'` — which the legacy `generateMinimalConfig`
never does (the only recursive call passes `'disabled'`). -/
theorem legacyProcessItem_disabled_frame {items : List Item}
    {chk : List String} {cs : List (String × NodeState)} :
    ∀ n it pst acc, pst ≠ some Action.enabled →
      (legacyProcessItem items chk cs n it pst acc).2 = acc.2 := by
  intro n
  induction n with
  | zero => intro it pst acc _; rfl
  | succ n ih =>
    intro it pst acc hpst
    have hfold : ∀ (l : List Item) (a : List String × List String),
        (l.foldl (fun a c =>
          legacyProcessItem items chk cs n c (some Action.disabled) a) a).2
          = a.2 := by
      intro l
      induction l with
      | nil => intro a; rfl
      | cons c cl ihl =>
        intro a
        rw [List.foldl_cons, ihl, ih c (some Action.disabled) a (by simp)]
    cases pst with
    | none =>
      simp only [legacyProcessItem]
      by_cases h1 : (legacyFlags (nsGet cs it.id)).1 = true
      · simp [h1]
      · by_cases h2 : (legacyFlags (nsGet cs it.id)).2.1 = true
        · simp [h1, h2]
        · by_cases h3 : (legacyFlags (nsGet cs it.id)).2.2 = true
          · by_cases h4 : (legacyCountDescendants items chk (n + 1) it).1 ≤
                (legacyCountDescendants items chk (n + 1) it).2
            · simp [h1, h2, h3, h4, hfold]
            · simp [h1, h2, h3, h4]
          · simp [h1, h2, h3]
    | some a =>
      cases a with
      | enabled => exact absurd rfl hpst
      | disabled =>
        simp only [legacyProcessItem]
        by_cases h1 : (legacyFlags (nsGet cs it.id)).1 = true
        · simp [h1]
        · by_cases h2 : (legacyFlags (nsGet cs it.id)).2.1 = true
          · simp [h1, h2]
          · by_cases h3 : (legacyFlags (nsGet cs it.id)).2.2 = true
            · by_cases h4 : (legacyCountDescendants items chk (n + 1) it).1 ≤
                  (legacyCountDescendants items chk (n + 1) it).2
              · simp [h1, h2, h3, h4]
              · simp [h1, h2, h3, h4]
            · simp [h1, h2, h3]

/-- The legacy variant's `disabled` array is always empty as invoked. -/
theorem legacyGenerateMinimalConfig_disabled_nil {items : List Item}
    {chk : List String} {cs : List (String × NodeState)} {fuel : Nat} :
    (legacyGenerateMinimalConfig items chk cs fuel).disabled = [] := by
  unfold legacyGenerateMinimalConfig
  show (items.foldl
    (fun acc it => legacyProcessItem items chk cs fuel it none acc) ([], [])).2 = []
  have hfold : ∀ (l : List Item) (a : List String × List String),
      (l.foldl (fun acc it =>
        legacyProcessItem items chk cs fuel it none acc) a).2 = a.2 := by
    intro l
    induction l with
    | nil => intro a; rfl
    | cons c cl ihl =>
      intro a
      rw [List.foldl_cons, ihl,
        legacyProcessItem_disabled_frame fuel c none a (by simp)]
  rw [hfold]

/-- C6: Mutual exclusion — no identifier ever appears in both arrays of a
synthesized record: the packaged `generateMinimalConfig` splits a
duplicate-free tracker (every reachable state's tracker is duplicate-free),
and the legacy majority-vote variant, as invoked, only ever pushes into
`enabled`, leaving `disabled` empty. -/
theorem c6_mutual_exclusion {items : List Item} {f : Nat} :
    (∀ st, Reachable items f st → ∀ id,
      ¬(id ∈ (generateMinimalConfig st.explicitActions).enabled ∧
        id ∈ (generateMinimalConfig st.explicitActions).disabled))
    ∧ (∀ (chk : List String) (cs : List (String × NodeState)) (fuel : Nat)
        (id : String),
      ¬(id ∈ (legacyGenerateMinimalConfig items chk cs fuel).enabled ∧
        id ∈ (legacyGenerateMinimalConfig items chk cs fuel).disabled)) := by
  constructor
  · intro st hst id
    exact generateMinimalConfig_disjoint (reachable_keys_nodup hst) id
  · rintro chk cs fuel id ⟨_, hd⟩
    rw [legacyGenerateMinimalConfig_disabled_nil] at hd
    cases hd

/-- Concrete instance of mutual exclusion: after applying
`{enabled:[r], disabled:[a]}` and toggling `b`, no id is in both arrays of
the resynthesized record, and the record is non-trivial. -/
theorem c6_mutual_exclusion_witness :
    (¬("r" ∈ (generateMinimalConfig
        (handleToggle [⟨"r", none⟩, ⟨"a", some "r"⟩, ⟨"b", some "r"⟩] 3
          (applyExternal [⟨"r", none⟩, ⟨"a", some "r"⟩, ⟨"b", some "r"⟩]
            ⟨["r"], ["a"]⟩ 3) "b").explicitActions).enabled ∧
      "r" ∈ (generateMinimalConfig
        (handleToggle [⟨"r", none⟩, ⟨"a", some "r"⟩, ⟨"b", some "r"⟩] 3
          (applyExternal [⟨"r", none⟩, ⟨"a", some "r"⟩, ⟨"b", some "r"⟩]
            ⟨["r"], ["a"]⟩ 3) "b").explicitActions).disabled))
    ∧ ¬("a" ∈ (legacyGenerateMinimalConfig
          [⟨"r", none⟩, ⟨"a", some "r"⟩, ⟨"b", some "r"⟩] ["a"]
          (legacyCheckedStateMap [⟨"r", none⟩, ⟨"a", some "r"⟩, ⟨"b", some "r"⟩]
            ["a"] 3) 3).enabled ∧
        "a" ∈ (legacyGenerateMinimalConfig
          [⟨"r", none⟩, ⟨"a", some "r"⟩, ⟨"b", some "r"⟩] ["a"]
          (legacyCheckedStateMap [⟨"r", none⟩, ⟨"a", some "r"⟩, ⟨"b", some "r"⟩]
            ["a"] 3) 3).disabled)
    ∧ (generateMinimalConfig
        (handleToggle [⟨"r", none⟩, ⟨"a", some "r"⟩, ⟨"b", some "r"⟩] 3
          (applyExternal [⟨"r", none⟩, ⟨"a", some "r"⟩, ⟨"b", some "r"⟩]
            ⟨["r"], ["a"]⟩ 3) "b").explicitActions).enabled ≠ [] :=
  ⟨(@c6_mutual_exclusion [⟨"r", none⟩, ⟨"a", some "r"⟩, ⟨"b", some "r"⟩] 3).1 _
      (Reachable.toggle _ "b" (Reachable.applyRecord ⟨["r"], ["a"]⟩)) "r",
    (@c6_mutual_exclusion [⟨"r", none⟩, ⟨"a", some "r"⟩, ⟨"b", some "r"⟩] 3).2
      ["a"] _ 3 "a",
    by decide⟩

/-! ## Claim C7: the emission guard -/

/-- A per-array comparison of `hasConfigChanged` is `false` exactly for
element-wise (order-sensitive) equal arrays. -/
theorem seqUnchanged_iff {l1 l2 : List String} :
    ((decide (l1.length ≠ l2.length)) ||
      l1.enum.any (fun e => decide (l2.get? e.1 ≠ some e.2))) = false ↔
    l1 = l2 := by
  rw [Bool.or_eq_false_iff, decide_eq_false_iff_not, not_ne_iff,
    List.any_eq_false]
  constructor
  · rintro ⟨hlen, hall⟩
    rw [List.ext_get?_iff]
    intro i
    cases hget : l1.get? i with
    | some x =>
      have hmem : (i, x) ∈ l1.enum := by
        rw [List.mem_enum_iff_get?]
        exact hget
      have := hall _ hmem
      simp only [decide_eq_true_eq, not_not] at this
      rw [this]
    | none =>
      have h1 : l1.length ≤ i := by
        rw [← List.get?_eq_none]
        exact hget
      have h2 : l2.length ≤ i := hlen ▸ h1
      rw [List.get?_eq_none.mpr h2]
  · rintro rfl
    refine ⟨rfl, ?_⟩
    intro e he
    simp only [decide_eq_true_eq, not_not]
    rw [List.mem_enum_iff_get?] at he
    exact he

theorem hasConfigChanged_eq_false_iff {n p : TreeSyncConfig} :
    hasConfigChanged n (some p) = false ↔
      n.enabled = p.enabled ∧ n.disabled = p.disabled := by
  show ((decide (n.enabled.length ≠ p.enabled.length)) ||
      n.enabled.enum.any (fun e => decide (p.enabled.get? e.1 ≠ some e.2)) ||
    ((decide (n.disabled.length ≠ p.disabled.length)) ||
      n.disabled.enum.any (fun e => decide (p.disabled.get? e.1 ≠ some e.2))))
    = false ↔ _
  rw [Bool.or_eq_false_iff, seqUnchanged_iff, seqUnchanged_iff]

/-- C7 (amended): the debounce-fire emission is gated by an
*order-sensitive*, element-wise comparison with the last emitted record —
nothing is emitted exactly when both arrays coincide as sequences, and in
particular the identical record is never re-emitted. -/
theorem c7_order_sensitive_emission {acts : List (String × Action)}
    {p : TreeSyncConfig} :
    ((emitStep acts (some p)).1 = none ↔
      (generateMinimalConfig acts).enabled = p.enabled ∧
      (generateMinimalConfig acts).disabled = p.disabled)
    ∧ (emitStep acts (some (generateMinimalConfig acts))).1 = none := by
  constructor
  · unfold emitStep
    by_cases h : hasConfigChanged (generateMinimalConfig acts) (some p) = true
    · simp only [h, if_pos]
      constructor
      · intro hc
        cases hc
      · intro hc
        rw [← hasConfigChanged_eq_false_iff] at hc
        rw [hc] at h
        cases h
    · have hf : hasConfigChanged (generateMinimalConfig acts) (some p) = false := by
        cases hb : hasConfigChanged (generateMinimalConfig acts) (some p)
        · rfl
        · exact absurd hb h
      simp only [hf]
      constructor
      · intro _
        exact hasConfigChanged_eq_false_iff.mp hf
      · intro _
        rfl
  · unfold emitStep
    have hf : hasConfigChanged (generateMinimalConfig acts)
        (some (generateMinimalConfig acts)) = false :=
      hasConfigChanged_eq_false_iff.mpr ⟨rfl, rfl⟩
    simp [hf]

/-- C7 (counterexample to the claim as stated): a record holding the same
identifiers as the last emitted one but in a different order — equal as
sets (a permutation) — is classified as changed and re-emitted. -/
theorem c7_reorder_reemitted :
    (["b", "a"] : List String).Perm ["a", "b"]
    ∧ hasConfigChanged ⟨["b", "a"], []⟩ (some ⟨["a", "b"], []⟩) = true
    ∧ (emitStep [("b", Action.enabled), ("a", Action.enabled)]
        (some ⟨["a", "b"], []⟩)).1 = some ⟨["b", "a"], []⟩ :=
  ⟨by decide, by decide, by decide⟩

/-! ## Claim C8: loader failure recovery -/

/-- C8 (amended): for a parent id not yet requested, a rejected loader
promise leaves no requested-parents entry (a future expand can retry), no
loading-indicator entry, and no exception reaches the caller; a
*synchronous* loader throw also clears both entries but the `catch` block
rethrows, so that exception does propagate to the caller. -/
theorem c8_loader_failure_recovery {requested loading : List String}
    {pid : String} (h : pid ∉ requested) :
    (pid ∉ (callLoad requested loading pid .asyncReject).requested
      ∧ pid ∉ (callLoad requested loading pid .asyncReject).loading
      ∧ (callLoad requested loading pid .asyncReject).propagated = false)
    ∧ (pid ∉ (callLoad requested loading pid .syncThrow).requested
      ∧ pid ∉ (callLoad requested loading pid .syncThrow).loading
      ∧ (callLoad requested loading pid .syncThrow).propagated = true) := by
  unfold callLoad
  rw [if_neg h, if_neg h]
  refine ⟨⟨?_, ?_, rfl⟩, ⟨?_, ?_, rfl⟩⟩
  · intro hm
    exact (mem_setDelete.mp hm).2 rfl
  · intro hm
    exact (mem_setDelete.mp hm).2 rfl
  · intro hm
    exact h (mem_setDelete.mp hm).1
  · intro hm
    exact (mem_setDelete.mp hm).2 rfl

/-- C8 (counterexample to the claim as stated): a synchronous loader throw
is rethrown by `callLoad` — the exception propagates to the caller even
though both tracking entries are cleared. -/
theorem c8_sync_throw_propagates :
    (callLoad [] [] "p" .syncThrow).propagated = true
    ∧ "p" ∉ (callLoad [] [] "p" .syncThrow).requested
    ∧ "p" ∉ (callLoad [] [] "p" .syncThrow).loading := by
  decide

/-- Concrete instance of the recovery behaviour on a rejected promise. -/
theorem c8_loader_failure_recovery_witness :
    ("p" ∉ ([] : List String))
    ∧ "p" ∉ (callLoad [] ["q"] "p" .asyncReject).requested
    ∧ (callLoad [] ["q"] "p" .asyncReject).propagated = false :=
  ⟨by decide, (c8_loader_failure_recovery (by decide)).1.1,
    (c8_loader_failure_recovery (by decide)).1.2.2⟩

/-! ## Claim C9: termination of the ancestor and search walks -/

/-- The recursive search finishes on every ranked store. -/
theorem searchFlat_ranked_ne_none {items : List Item} {rank : String → Nat}
    {R : Nat} (hws : RankedStore items rank R) (tid : String) :
    ∀ n l, (∀ it ∈ l, it ∈ items) → (∀ it ∈ l, R < n + rank it.id) →
      searchFlat items tid n l ≠ none := by
  intro n
  induction n with
  | zero =>
    intro l hsub hfuel
    cases l with
    | nil => simp [searchFlat]
    | cons it rest =>
      have h1 := hfuel it (List.mem_cons_self _ _)
      have h2 := hws.rank_le it (hsub it (List.mem_cons_self _ _))
      omega
  | succ n ih =>
    intro l
    induction l with
    | nil =>
      intro _ _
      simp [searchFlat, searchFlatAux]
    | cons it rest ihl =>
      intro hsub hfuel
      show searchFlatAux items tid (searchFlat items tid n) (it :: rest) ≠ none
      simp only [searchFlatAux]
      by_cases hid : it.id = tid
      · simp [hid]
      · rw [if_neg hid]
        cases hrc : searchFlat items tid n (childrenOf items it.id) with
        | none =>
          refine absurd hrc (ih (childrenOf items it.id) childrenOf_subset ?_)
          intro c hc
          obtain ⟨hcm, hcp⟩ := mem_childrenOf.mp hc
          have hlt := hws.child_rank_lt (hsub it (List.mem_cons_self _ _)) hcm hcp
          have := hfuel it (List.mem_cons_self _ _)
          omega
        | some o =>
          cases o with
          | some r => simp
          | none =>
            exact ihl (fun i hi => hsub i (List.mem_cons_of_mem _ hi))
              (fun i hi => hfuel i (List.mem_cons_of_mem _ hi))

/-- The parent-chain loop finishes on every ranked store. -/
theorem ancLoop_ranked_ne_none {items : List Item} {rank : String → Nat}
    {R : Nat} (hws : RankedStore items rank R) :
    ∀ n it acc, it ∈ items → rank it.id < n →
      ancLoop items n it acc ≠ none := by
  intro n
  induction n with
  | zero => intro it acc _ h; omega
  | succ n ih =>
    intro it acc hit hr
    cases hpar : getParentId it with
    | none => simp [ancLoop, hpar]
    | some pid =>
      cases hfind : items.find? (fun p => p.id = pid) with
      | none => simp [ancLoop, hpar, hfind]
      | some p =>
        obtain ⟨hpm, hpid⟩ := find?_id_mem hfind
        have hlt := hws.parent_lt it hit p hpm (hpid ▸ hpar)
        simp only [ancLoop, hpar, hfind]
        exact ih p _ hpm (by omega)

/-- C9 (amended): on a ranked (acyclic, duplicate-free) store both the
ancestor walk of `getAncestorIds` and the recursive absence search of
`findItemInFlat` terminate for every queried id, with fuel beyond the rank
bound; on a store containing a parent-pointer cycle they need not — the
source tracks no visited ids. -/
theorem c9_ranked_walk_termination {items : List Item} {rank : String → Nat}
    {R f : Nat} (hws : RankedStore items rank R) (hf : R < f)
    (tid : String) :
    getAncestorIds items tid f ≠ none ∧ searchFlat items tid f items ≠ none := by
  have hsearch : searchFlat items tid f items ≠ none :=
    searchFlat_ranked_ne_none hws tid f items (fun _ h => h)
      (fun it hi => by have := hws.rank_le it hi; omega)
  refine ⟨?_, hsearch⟩
  unfold getAncestorIds
  cases hfind : findItemInFlat items tid f with
  | none =>
    unfold findItemInFlat at hfind
    cases hdir : items.find? (fun it => it.id = tid) with
    | some it => rw [hdir] at hfind; cases hfind
    | none =>
      rw [hdir] at hfind
      exact absurd hfind hsearch
  | some o =>
    cases o with
    | none => simp
    | some it =>
      obtain ⟨hm, _⟩ := findItemInFlat_found hfind
      have := hws.rank_le it hm
      exact ancLoop_ranked_ne_none hws f it [] hm (by omega)

/-- Concrete instance of walk termination on an acyclic store. -/
theorem c9_ranked_walk_termination_witness :
    (getAncestorIds [⟨"r", none⟩, ⟨"a", some "r"⟩, ⟨"b", some "r"⟩] "b" 2 ≠ none
      ∧ searchFlat [⟨"r", none⟩, ⟨"a", some "r"⟩, ⟨"b", some "r"⟩] "b" 2
          [⟨"r", none⟩, ⟨"a", some "r"⟩, ⟨"b", some "r"⟩] ≠ none)
    ∧ getAncestorIds [⟨"r", none⟩, ⟨"a", some "r"⟩, ⟨"b", some "r"⟩] "b" 2 =
        some (some ["r"]) :=
  ⟨@c9_ranked_walk_termination [⟨"r", none⟩, ⟨"a", some "r"⟩, ⟨"b", some "r"⟩]
      (fun s => if s = "r" then 0 else 1) 1 2
      ⟨by decide, by decide, by decide⟩ (by omega) "b",
    by decide⟩

/-- C9 (counterexample to the claim as stated): on the two-node
parent-pointer cycle `a ⇄ b` the ancestor walk runs out of any amount of
fuel (it tracks no visited ids and never breaks), and so does the
recursive search for an absent id — neither walk terminates. -/
theorem c9_cycle_nontermination :
    ¬ AncTerminates [⟨"a", some "b"⟩, ⟨"b", some "a"⟩] "a"
    ∧ ¬ SearchTerminates [⟨"a", some "b"⟩, ⟨"b", some "a"⟩] "c" := by
  have hga : getParentId ⟨"a", some "b"⟩ = some "b" := by decide
  have hgb : getParentId ⟨"b", some "a"⟩ = some "a" := by decide
  have hfa : ([(⟨"a", some "b"⟩ : Item), ⟨"b", some "a"⟩]).find?
      (fun p => p.id = "a") = some ⟨"a", some "b"⟩ := by decide
  have hfb : ([(⟨"a", some "b"⟩ : Item), ⟨"b", some "a"⟩]).find?
      (fun p => p.id = "b") = some ⟨"b", some "a"⟩ := by decide
  have hanc : ∀ n,
      (∀ acc, ancLoop [⟨"a", some "b"⟩, ⟨"b", some "a"⟩] n ⟨"a", some "b"⟩ acc
        = none)
      ∧ (∀ acc, ancLoop [⟨"a", some "b"⟩, ⟨"b", some "a"⟩] n ⟨"b", some "a"⟩ acc
        = none) := by
    intro n
    induction n with
    | zero => exact ⟨fun _ => rfl, fun _ => rfl⟩
    | succ n ih =>
      constructor
      · intro acc
        simp only [ancLoop, hga, hfb]
        exact ih.2 _
      · intro acc
        simp only [ancLoop, hgb, hfa]
        exact ih.1 _
  have hca : childrenOf [⟨"a", some "b"⟩, ⟨"b", some "a"⟩] "a" =
      [⟨"b", some "a"⟩] := by decide
  have hcb : childrenOf [⟨"a", some "b"⟩, ⟨"b", some "a"⟩] "b" =
      [⟨"a", some "b"⟩] := by decide
  have hsearch : ∀ n,
      searchFlat [⟨"a", some "b"⟩, ⟨"b", some "a"⟩] "c" n [⟨"a", some "b"⟩]
        = none
      ∧ searchFlat [⟨"a", some "b"⟩, ⟨"b", some "a"⟩] "c" n [⟨"b", some "a"⟩]
        = none
      ∧ searchFlat [⟨"a", some "b"⟩, ⟨"b", some "a"⟩] "c" n
          [⟨"a", some "b"⟩, ⟨"b", some "a"⟩] = none := by
    intro n
    induction n with
    | zero => exact ⟨rfl, rfl, rfl⟩
    | succ n ih =>
      refine ⟨?_, ?_, ?_⟩
      · show searchFlatAux _ _ _ _ = none
        simp only [searchFlatAux, hca, ih.2.1]
        decide
      · show searchFlatAux _ _ _ _ = none
        simp only [searchFlatAux, hcb, ih.1]
        decide
      · show searchFlatAux _ _ _ _ = none
        simp only [searchFlatAux, hca, ih.2.1]
        decide
  constructor
  · rintro ⟨fuel, hterm⟩
    apply hterm
    show getAncestorIds _ _ _ = none
    unfold getAncestorIds findItemInFlat
    rw [hfa]
    exact (hanc fuel).1 []
  · rintro ⟨fuel, hterm⟩
    exact hterm (hsearch fuel).2.2

/-! ## Claim C10: the root-sentinel mismatch -/

/-- C10: In the packaged variant an item is a root exactly when its
`parentId` is falsy, so an item whose `parentId` is the string `'root'` —
the sentinel the component passes to the loader — is *not* a root; on a
store whose items all carry truthy parent ids the `checkedState` map is
empty, so the `'root'`-parented item gets no display-state entry; the
legacy variant instead accepts `parentId === 'root'` as root-level and does
give it an entry. -/
theorem c10_root_sentinel_mismatch :
    (∀ it : Item, isRootItem it = true ↔ getParentId it = none)
    ∧ isRootItem ⟨"x", some "root"⟩ = false
    ∧ legacyIsRoot ⟨"x", some "root"⟩ = true
    ∧ (∀ (items : List Item) (chk : List String) (fuel : Nat),
        (∀ it ∈ items, isRootItem it = false) →
        checkedStateMap items chk fuel = [])
    ∧ (∀ (chk : List String) (fuel : Nat),
        nsGet (checkedStateMap [⟨"x", some "root"⟩] chk fuel) "x" = none)
    ∧ (∀ (chk : List String) (fuel : Nat),
        nsGet (legacyCheckedStateMap [⟨"x", some "root"⟩] chk (fuel + 1)) "x" =
          some { checked := "x" ∈ chk, indeterminate := false }) := by
  have hroots : ∀ (items : List Item), (∀ it ∈ items, isRootItem it = false) →
      getRootItems items = [] := by
    intro items hall
    unfold getRootItems
    rw [List.filter_eq_nil]
    intro it hit
    simp [hall it hit]
  refine ⟨?_, by decide, by decide, ?_, ?_, ?_⟩
  · intro it
    simp [isRootItem]
  · intro items chk fuel hall
    unfold checkedStateMap
    rw [hroots items hall]
    rfl
  · intro chk fuel
    have h1 : checkedStateMap [⟨"x", some "root"⟩] chk fuel = [] := by
      unfold checkedStateMap
      rw [hroots [⟨"x", some "root"⟩] (by decide)]
      rfl
    rw [h1]
    rfl
  · intro chk fuel
    have hroot : ([(⟨"x", some "root"⟩ : Item)]).filter legacyIsRoot =
        [⟨"x", some "root"⟩] := by decide
    have hchild : legacyChildrenOf [⟨"x", some "root"⟩] "x" = [] := by decide
    unfold legacyCheckedStateMap
    rw [hroot]
    show nsGet (legacyCalcStateMapFrom [⟨"x", some "root"⟩] chk (fuel + 1)
      ⟨"x", some "root"⟩ []) "x" = _
    simp only [legacyCalcStateMapFrom, hchild]
    rw [if_pos (show ([] : List Item).isEmpty = true from rfl)]
    rfl

/-- Concrete instance of the sentinel mismatch: the `'root'`-parented item
has no packaged display-state entry but has a legacy one. -/
theorem c10_root_sentinel_mismatch_witness :
    ((∀ it ∈ [(⟨"x", some "root"⟩ : Item)], isRootItem it = false) →
      checkedStateMap [⟨"x", some "root"⟩] ["x"] 2 = [])
    ∧ checkedStateMap [⟨"x", some "root"⟩] ["x"] 2 = []
    ∧ nsGet (legacyCheckedStateMap [⟨"x", some "root"⟩] ["x"] 2) "x" =
        some { checked := true, indeterminate := false } :=
  ⟨c10_root_sentinel_mismatch.2.2.2.1 [⟨"x", some "root"⟩] ["x"] 2,
    c10_root_sentinel_mismatch.2.2.2.1 [⟨"x", some "root"⟩] ["x"] 2 (by decide),
    by decide⟩

end SelectableTreeView
